import Mathlib

/-!
Verification of the core model-output parsing, validation and merge/write
orchestration loop of this repository (the `ultimate_python_generator5.py`
variant, plus `orchestrator_best_version.py` for the model-client boundary).

Python strings are modelled as `List Char`; the helper functions below
reimplement the exact Python string primitives the source uses
(`str.strip`, `str.split`, `str.startswith`, substring membership, …) for
the ASCII texts the program manipulates.  The Python `ast.parse` syntax
oracle is an external black box and is modelled as an explicit function
parameter `pyValid : List Char → Bool`.
-/

set_option maxRecDepth 100000

namespace Monetization

/-- The single-quote character (ASCII 39). -/
def sq : Char := Char.ofNat 39

/-- The double-quote character. -/
def dq : Char := '"'

/-- The backslash character. -/
def bslash : Char := '\\'

/-- The opening curly brace (ASCII 123). -/
def obrC : Char := Char.ofNat 123

/-- The closing curly brace (ASCII 125). -/
def cbrC : Char := Char.ofNat 125

/-- Coerce a Lean string literal to the `List Char` representation. -/
def lc (s : String) : List Char := s.data

/-- Python `str` whitespace (ASCII part), as used by `str.strip()` / `str.split()`. -/
def pyIsSpace (c : Char) : Bool :=
  c = ' ' || c = '\t' || c = '\n' || c = '\r' || c = '\x0b' || c = '\x0c'

/-- `str.lstrip()` (whitespace only). -/
def plstrip (s : List Char) : List Char := List.dropWhile pyIsSpace s

/-- `str.strip()` (whitespace only). -/
def pstrip (s : List Char) : List Char :=
  plstrip (List.reverse (plstrip (List.reverse s)))

/-- `s.startswith(p)` for Python strings. -/
def pyStartsWith : List Char → List Char → Bool
  | _, [] => true
  | [], _ :: _ => false
  | c :: s, d :: p => c = d && pyStartsWith s p

/-- `s.endswith(p)` for Python strings. -/
def pyEndsWith (s p : List Char) : Bool :=
  pyStartsWith (List.reverse s) (List.reverse p)

/-- `s.endswith(c)` for a single character `c`. -/
def pyEndsWithCh (s : List Char) (c : Char) : Bool :=
  match List.getLast? s with
  | some d => d = c
  | none => false

/-- Python substring membership `n in s`. -/
def pyContainsSub : List Char → List Char → Bool
  | s, n =>
    if pyStartsWith s n then true
    else
      match s with
      | [] => false
      | _ :: t => pyContainsSub t n

/-- ASCII lower-casing of one character (`str.lower` on the ASCII texts used here). -/
def asciiLower (c : Char) : Char :=
  if 'A' ≤ c && c ≤ 'Z' then Char.ofNat (c.toNat + 32) else c

/-- ASCII upper-casing of one character. -/
def asciiUpper (c : Char) : Char :=
  if 'a' ≤ c && c ≤ 'z' then Char.ofNat (c.toNat - 32) else c

/-- `str.lower()` (ASCII model). -/
def pyToLower (s : List Char) : List Char := s.map asciiLower

/-- `str.upper()` (ASCII model). -/
def pyToUpper (s : List Char) : List Char := s.map asciiUpper

/-- Accumulator for `splitWs`. -/
def splitWsAux : List Char → List Char → List (List Char)
  | acc, [] => if acc = [] then [] else [acc.reverse]
  | acc, c :: t =>
    if pyIsSpace c then
      if acc = [] then splitWsAux [] t else acc.reverse :: splitWsAux [] t
    else splitWsAux (c :: acc) t

/-- Python `str.split()` with no separator: split on whitespace runs, no empty parts. -/
def splitWs (s : List Char) : List (List Char) := splitWsAux [] s

/-- Accumulator for `splitCh`. -/
def splitChAux (c : Char) : List Char → List Char → List (List Char)
  | acc, [] => [acc.reverse]
  | acc, d :: t =>
    if d = c then acc.reverse :: splitChAux c [] t else splitChAux c (d :: acc) t

/-- Python `str.split(c)` for a one-character separator (e.g. line splitting). -/
def splitCh (c : Char) (s : List Char) : List (List Char) := splitChAux c [] s

/-- `'\n'.join(parts)`-style joining with a separator string. -/
def joinWith (sep : List Char) : List (List Char) → List Char
  | [] => []
  | [p] => p
  | p :: q :: t => p ++ sep ++ joinWith sep (q :: t)

/-- Identifier start character (ASCII model of `str.isidentifier`). -/
def identStart (c : Char) : Bool :=
  ('a' ≤ c && c ≤ 'z') || ('A' ≤ c && c ≤ 'Z') || c = '_'

/-- Identifier continuation character (ASCII model). -/
def identCont (c : Char) : Bool :=
  identStart c || ('0' ≤ c && c ≤ '9')

/-- `str.isidentifier()` (ASCII model: the program's inputs are ASCII). -/
def pyIsIdentifier : List Char → Bool
  | [] => false
  | c :: t => identStart c && t.all identCont

/-!  ## Structure Completeness Checker
(`is_complete_structure`, `_has_unclosed_strings`, `is_incomplete_structure`,
`is_valid_python_structure` of `ultimate_python_generator5.py`, lines 726-812). -/

/-- One step of the `_has_unclosed_strings` scan: state is
`(in_single, in_double)`, `prev` is the previous character (the Python loop
checks `i > 0 and text[i-1] == '\\'`). -/
def huGo : Bool → Bool → Option Char → List Char → Bool × Bool
  | inS, inD, _, [] => (inS, inD)
  | inS, inD, prev, c :: t =>
    if c = sq && !inD then
      if prev = some bslash then huGo inS inD (some c) t
      else huGo (!inS) inD (some c) t
    else if c = dq && !inS then
      if prev = some bslash then huGo inS inD (some c) t
      else huGo inS (!inD) (some c) t
    else huGo inS inD (some c) t

/-- `_has_unclosed_strings` (lines 762-781): scan tracking single/double
quote state; a quote whose immediately preceding character is a backslash is
skipped; a double quote inside a single-quoted region (and vice versa) is
ignored. -/
def has_unclosed_strings (text : List Char) : Bool :=
  let r := huGo false false none text
  r.1 || r.2

/-- `is_valid_python_structure` (lines 806-812): `ast.parse` succeeding is
the external syntax oracle `pyValid`. -/
def is_valid_python_structure (pyValid : List Char → Bool) (text : List Char) : Bool :=
  pyValid text

/-- The request-indicator substrings of `is_complete_structure` (lines 740-744). -/
def request_indicators : List (List Char) :=
  [lc "create", lc "make", lc "generate", lc "build", lc "write", lc "develop",
   lc "implement", lc "design", lc "script", lc "program", lc "function",
   lc "class", lc "module", lc "tool", lc "application", lc "system"]

/-- The structural characters checked by `is_complete_structure` (line 749). -/
def structural_chars : List Char := [obrC, '[', '=', ':', dq]

/-- The decision chain of `is_complete_structure` (lines 726-760) applied to
the already-stripped text (the source computes `stripped = text.strip()` first
and branches on it; `is_complete_structure` below composes the two). -/
def is_complete_core (pyValid : List Char → Bool) (stripped : List Char) : Bool :=
  if stripped = [] then false
  else if has_unclosed_strings stripped then false
  else if is_valid_python_structure pyValid stripped then true
  else if request_indicators.any (fun w => pyContainsSub (pyToLower stripped) w) then true
  else if !(structural_chars.any (fun c => stripped.contains c)) then true
  else if (List.count obrC stripped == List.count cbrC stripped) &&
          (List.count '[' stripped == List.count ']' stripped) &&
          (List.count '(' stripped == List.count ')' stripped) then
    if pyEndsWithCh stripped cbrC || pyEndsWithCh stripped ']' ||
       pyEndsWithCh stripped ')' ||
       !(stripped.contains obrC || stripped.contains '[' || stripped.contains '(') then
      true
    else false
  else false

/-- `is_complete_structure` (lines 726-760). -/
def is_complete_structure (pyValid : List Char → Bool) (text : List Char) : Bool :=
  is_complete_core pyValid (pstrip text)

/-- The request verbs of `is_incomplete_structure` (line 790). -/
def request_words : List (List Char) :=
  [lc "create", lc "make", lc "generate", lc "build", lc "write", lc "develop",
   lc "script", lc "program", lc "implement"]

/-- The decision chain of `is_incomplete_structure` (lines 783-804) applied to
the already-stripped text; note the source passes the stripped text on to
`is_complete_structure` (which strips again). -/
def is_incomplete_core (pyValid : List Char → Bool) (stripped : List Char) : Bool :=
  if is_complete_structure pyValid stripped then false
  else if request_words.any (fun w => pyContainsSub (pyToLower stripped) w) then false
  else if 5 < (splitWs stripped).length then false
  else
    pyEndsWithCh stripped '=' ||
    (pyEndsWithCh stripped obrC && (List.count cbrC stripped == 0)) ||
    (pyEndsWithCh stripped '[' && (List.count ']' stripped == 0)) ||
    (decide (stripped.length < 10) && pyIsIdentifier stripped)

/-- `is_incomplete_structure` (lines 783-804). -/
def is_incomplete_structure (pyValid : List Char → Bool) (text : List Char) : Bool :=
  is_incomplete_core pyValid (pstrip text)

/-- State of the interactive multi-line accumulator
(`self.multi_line_mode`, `self.current_input`). -/
structure MLState where
  mode : Bool
  current : List Char
deriving DecidableEq

/-- `handle_multi_line_input` (lines 1201-1231): returns the request text to
process (`none` means "await further input") and the updated state. -/
def handle_multi_line_input (pyValid : List Char → Bool) (st : MLState)
    (userInput : List Char) : Option (List Char) × MLState :=
  if !st.mode then
    if !(is_incomplete_structure pyValid userInput) then (some userInput, st)
    else (none, ⟨true, userInput⟩)
  else
    if pyToUpper (pstrip userInput) = lc "END" then (some st.current, ⟨false, []⟩)
    else if pyToUpper (pstrip userInput) = lc "CANCEL" then (none, ⟨false, []⟩)
    else
      let cur := st.current ++ '\n' :: userInput
      if !(is_incomplete_structure pyValid cur) then (some cur, ⟨false, []⟩)
      else (none, ⟨true, cur⟩)

/-! ### Basic facts about the Python `strip` model -/

lemma plstrip_head_not : ∀ (l : List Char) (c : Char) (t : List Char),
    plstrip l = c :: t → pyIsSpace c = false := by
  intro l
  induction l with
  | nil => intro c t h; simp [plstrip] at h
  | cons a l ih =>
    intro c t h
    by_cases ha : pyIsSpace a
    · exact ih c t (by simpa [plstrip, List.dropWhile_cons, ha] using h)
    · have : a :: l = c :: t := by simpa [plstrip, List.dropWhile_cons, ha] using h
      cases this
      simpa using ha

lemma plstrip_nonspace_head (c : Char) (t : List Char) (h : pyIsSpace c = false) :
    plstrip (c :: t) = c :: t := by
  simp [plstrip, List.dropWhile_cons, h]

lemma plstrip_idem (l : List Char) : plstrip (plstrip l) = plstrip l := by
  cases h : plstrip l with
  | nil => simp [plstrip]
  | cons c t => exact plstrip_nonspace_head c t (plstrip_head_not l c t h)

lemma plstrip_ne_nil (l : List Char) (h : plstrip l ≠ []) : l ≠ [] := by
  intro he; rw [he] at h; simp [plstrip] at h

lemma plstrip_getLast? (l : List Char) (h : plstrip l ≠ []) :
    (plstrip l).getLast? = l.getLast? := by
  induction l with
  | nil => simp [plstrip] at h
  | cons a l ih =>
    by_cases ha : pyIsSpace a
    · have e : plstrip (a :: l) = plstrip l := by
        simp [plstrip, List.dropWhile_cons, ha]
      rw [e] at h ⊢
      rw [ih h]
      have hl : l ≠ [] := plstrip_ne_nil l h
      cases l with
      | nil => exact absurd rfl hl
      | cons b m => rw [List.getLast?_cons_cons]
    · have e : plstrip (a :: l) = a :: l :=
        plstrip_nonspace_head a l (by simpa using ha)
      rw [e]

lemma head?_nonspace_plstrip (x : List Char) (c : Char) (h : x.head? = some c)
    (hc : pyIsSpace c = false) : plstrip x = x := by
  cases x with
  | nil => simp at h
  | cons a t =>
    have : a = c := by simpa using h
    subst this
    exact plstrip_nonspace_head a t hc

lemma pstrip_idem (t : List Char) : pstrip (pstrip t) = pstrip t := by
  by_cases hne : pstrip t = []
  · rw [hne]; rfl
  · have hvne : plstrip (List.reverse (plstrip (List.reverse t))) ≠ [] := hne
    have hwne : plstrip (List.reverse t) ≠ [] := by
      intro hw
      apply hvne
      rw [hw]
      rfl
    obtain ⟨c, w', hw⟩ : ∃ c w', plstrip (List.reverse t) = c :: w' := by
      cases hx : plstrip (List.reverse t) with
      | nil => exact absurd hx hwne
      | cons c w' => exact ⟨c, w', rfl⟩
    have hc : pyIsSpace c = false := plstrip_head_not _ c w' hw
    have hlast : (pstrip t).getLast? = some c := by
      show (plstrip (List.reverse (plstrip (List.reverse t)))).getLast? = some c
      rw [plstrip_getLast? _ hvne, hw]
      simp
    have hrev : plstrip (List.reverse (pstrip t)) = List.reverse (pstrip t) := by
      apply head?_nonspace_plstrip _ c _ hc
      rw [List.head?_reverse]
      exact hlast
    show plstrip (List.reverse (plstrip (List.reverse (pstrip t)))) = pstrip t
    rw [hrev, List.reverse_reverse]
    show plstrip (plstrip (List.reverse (plstrip (List.reverse t)))) = _
    exact plstrip_idem _

lemma is_complete_pstrip (pyValid : List Char → Bool) (t : List Char) :
    is_complete_structure pyValid (pstrip t) = is_complete_structure pyValid t := by
  unfold is_complete_structure
  rw [pstrip_idem]

/-! ### Claims C5, C6, C7 -/

/-- The Python source text `x = "\\"` (an assignment of a string literal
containing one escaped backslash): valid Python, so the real `ast.parse`
oracle accepts it. -/
def exC5 : List Char := lc "x = \"\\\\\""

/-- The Python source text `'a"b'` (a single-quoted string literal containing
one double quote): exactly one unescaped double quote occurs in it. -/
def exC6 : List Char := [sq] ++ lc "a\"b" ++ [sq]

/-- The text `build {`: syntactically invalid Python containing the request
verb `build`, a structural character and unbalanced brace counts. -/
def exC7 : List Char := lc "build \x7b"

/-- Spec-side count (from the words of claim C6) of occurrences of `c0` that
are not escaped, where a character is escaped exactly when it is immediately
preceded by a backslash that is not itself escaped. -/
def unescCountAux (c0 : Char) : Bool → List Char → Nat
  | _, [] => 0
  | esc, c :: t =>
    (if c = c0 && !esc then 1 else 0) + unescCountAux c0 (c = bslash && !esc) t

/-- Number of unescaped occurrences of `c0` in `s` (spec-side, claim C6). -/
def countUnescaped (c0 : Char) (s : List Char) : Nat := unescCountAux c0 false s

/-- C5 counterexample: the claim "for all text that parses as syntactically
valid source code on its own, `is_complete` returns true (including valid
source whose string literals contain backslash-escape sequences such as
`\\`)" fails on the valid source `x = "\\"`: the unclosed-string scan only
looks at the immediately preceding character, takes the final quote to be
escaped by the (itself escaped) backslash, and `is_complete` returns false
before the syntax oracle is even consulted — even under the constant-true
oracle, which agrees with `ast.parse` on this input. -/
theorem c5_counterexample :
    is_complete_structure (fun _ => true) exC5 = false ∧
    has_unclosed_strings exC5 = true := by decide

/-- C5 amended: for all text whose stripped form is non-empty, is not flagged
by the unclosed-string scan (which treats any quote immediately preceded by a
backslash as escaped and counts quotes inside comments), and parses as
syntactically valid source on its own, `is_complete` returns true. -/
theorem c5_amended (pyValid : List Char → Bool) (t : List Char)
    (h0 : pstrip t ≠ [])
    (h1 : has_unclosed_strings (pstrip t) = false)
    (h2 : pyValid (pstrip t) = true) :
    is_complete_structure pyValid t = true := by
  unfold is_complete_structure is_complete_core is_valid_python_structure
  rw [if_neg h0, if_neg (by simp [h1]), if_pos h2]

/-- Witness for `c5_amended` at the valid source `print(1)`. -/
theorem c5_witness :
    pstrip (lc "print(1)") ≠ [] ∧
    is_complete_structure (fun _ => true) (lc "print(1)") = true :=
  ⟨by decide, c5_amended (fun _ => true) (lc "print(1)") (by decide) (by decide) rfl⟩

/-- C6 counterexample: the claim "for all text containing an odd number of
unescaped double quotes, `is_complete` returns false — including when those
double quotes occur inside single-quoted regions" fails on `'a"b'`, which has
exactly one (an odd number of) unescaped double quote: the scanner ignores
double quotes inside single-quoted regions, and `is_complete` returns true
whatever verdict the syntax oracle gives (the real `ast.parse` accepts this
text). -/
theorem c6_counterexample :
    countUnescaped dq exC6 = 1 ∧
    is_complete_structure (fun _ => true) exC6 = true ∧
    is_complete_structure (fun _ => false) exC6 = true := by decide

/-- C6 amended: for all text on which the quote scanner — which ignores
double quotes inside single-quoted regions (and vice versa) and treats any
quote immediately preceded by a backslash as escaped — ends in an open
string state, `is_complete` returns false. -/
theorem c6_amended (pyValid : List Char → Bool) (t : List Char)
    (h : has_unclosed_strings (pstrip t) = true) :
    is_complete_structure pyValid t = false := by
  have h0 : pstrip t ≠ [] := by
    intro he
    rw [he] at h
    exact absurd h (by decide)
  unfold is_complete_structure is_complete_core
  rw [if_neg h0, if_pos h]

/-- Witness for `c6_amended` at the text `"` (one lone double quote). -/
theorem c6_witness :
    has_unclosed_strings (pstrip (lc "\"")) = true ∧
    is_complete_structure (fun _ => true) (lc "\"") = false :=
  ⟨by decide, c6_amended (fun _ => true) (lc "\"") (by decide)⟩

/-- C7 counterexample: the claim "non-empty text with balanced quotes that
does not parse, contains a structural character and has unbalanced bracket
counts is judged not complete — even when the text also contains a request
verb such as `create` or `build`" fails on `build {` (invalid Python, so the
constant-false oracle agrees with `ast.parse`): the code checks its
request-indicator word list before the structural-character and
bracket-balance steps and returns true because of the substring `build`. -/
theorem c7_counterexample :
    is_complete_structure (fun _ => false) exC7 = true ∧
    has_unclosed_strings exC7 = false ∧
    structural_chars.any (fun c => exC7.contains c) = true ∧
    ((List.count obrC exC7 == List.count cbrC exC7) &&
     (List.count '[' exC7 == List.count ']' exC7) &&
     (List.count '(' exC7 == List.count ')' exC7)) = false := by decide

/-- C7 amended: for every text whose stripped form is non-empty, has balanced
quotes per the scanner, is rejected by the syntax oracle, contains none of
the request-indicator substrings (create, make, generate, build, write,
develop, implement, design, script, program, function, class, module, tool,
application, system), contains at least one structural character among
`{ [ = : "`, and whose bracket counts are not all balanced, `is_complete`
returns false. -/
theorem c7_amended (pyValid : List Char → Bool) (t : List Char)
    (h0 : pstrip t ≠ [])
    (h1 : has_unclosed_strings (pstrip t) = false)
    (h2 : pyValid (pstrip t) = false)
    (h3 : request_indicators.any (fun w => pyContainsSub (pyToLower (pstrip t)) w) = false)
    (h4 : structural_chars.any (fun c => (pstrip t).contains c) = true)
    (h5 : ((List.count obrC (pstrip t) == List.count cbrC (pstrip t)) &&
           (List.count '[' (pstrip t) == List.count ']' (pstrip t)) &&
           (List.count '(' (pstrip t) == List.count ')' (pstrip t))) = false) :
    is_complete_structure pyValid t = false := by
  unfold is_complete_structure is_complete_core is_valid_python_structure
  rw [if_neg h0, if_neg (by simp [h1]), if_neg (by simp [h2]),
      if_neg (by rw [h3]; decide), if_neg (by rw [h4]; decide),
      if_neg (by rw [h5]; decide)]

/-- Witness for `c7_amended` at the text `xyz {` with the rejecting oracle. -/
theorem c7_witness :
    pstrip (lc "xyz \x7b") ≠ [] ∧
    is_complete_structure (fun _ => false) (lc "xyz \x7b") = false :=
  ⟨by decide, c7_amended (fun _ => false) (lc "xyz \x7b") (by decide) (by decide)
    rfl (by decide) (by decide) (by decide)⟩

/-! ### Claim C8 -/

/-- The request text of end-to-end scenario D: `CATS = {`. -/
def catsInput : List Char := lc "CATS = \x7b"

/-- Spec-side predicate, following the words of claim C8: the text is not
complete, contains none of the request verbs, is five words or fewer, and
either ends with `=`, ends with an opening `{` (resp. `[`) matched by zero
closing braces (resp. brackets) anywhere in the text — the claim's own gloss
of "unmatched" in scenario D — or is under 10 characters and a bare
identifier. -/
def spec_is_incomplete (pyValid : List Char → Bool) (t : List Char) : Prop :=
  is_complete_structure pyValid t = false ∧
  (∀ w ∈ request_words, pyContainsSub (pyToLower (pstrip t)) w = false) ∧
  (splitWs (pstrip t)).length ≤ 5 ∧
  (pyEndsWithCh (pstrip t) '=' = true ∨
   (pyEndsWithCh (pstrip t) obrC = true ∧ List.count cbrC (pstrip t) = 0) ∨
   (pyEndsWithCh (pstrip t) '[' = true ∧ List.count ']' (pstrip t) = 0) ∨
   ((pstrip t).length < 10 ∧ pyIsIdentifier (pstrip t) = true))

/-- C8: `is_incomplete` holds exactly under the claim's four conditions, and
on the scenario-D input `CATS = {` (rejected by the syntax oracle, as the real
`ast.parse` rejects it) `is_incomplete` is true and the interactive input
handler returns no request to process — so the Orchestrator does not call the
model — and switches to accumulation mode holding the input. -/
theorem c8_theorem (pyValid : List Char → Bool) (t : List Char) :
    (is_incomplete_structure pyValid t = true ↔ spec_is_incomplete pyValid t) ∧
    (pyValid catsInput = false →
      is_incomplete_structure pyValid catsInput = true ∧
      (handle_multi_line_input pyValid ⟨false, []⟩ catsInput).1 = none ∧
      (handle_multi_line_input pyValid ⟨false, []⟩ catsInput).2 = ⟨true, catsInput⟩) := by
  constructor
  · unfold is_incomplete_structure is_incomplete_core spec_is_incomplete
    rw [is_complete_pstrip]
    cases h1 : is_complete_structure pyValid t with
    | true => simp
    | false =>
      rw [if_neg (by simp)]
      by_cases hv : (request_words.any fun w => pyContainsSub (pyToLower (pstrip t)) w) = true
      · rw [if_pos hv]
        obtain ⟨w, hw, hfw⟩ := List.any_eq_true.mp hv
        constructor
        · intro h; cases h
        · rintro ⟨-, hall, -⟩
          rw [hall w hw] at hfw
          cases hfw
      · rw [if_neg hv]
        have hall : ∀ w ∈ request_words, pyContainsSub (pyToLower (pstrip t)) w = false := by
          intro w hw
          by_contra hne
          exact hv (List.any_eq_true.mpr ⟨w, hw, by
            revert hne
            cases pyContainsSub (pyToLower (pstrip t)) w <;> simp⟩)
        by_cases hlen : 5 < (splitWs (pstrip t)).length
        · rw [if_pos hlen]
          constructor
          · intro h; cases h
          · rintro ⟨-, -, hle, -⟩
            omega
        · rw [if_neg hlen]
          have hle : (splitWs (pstrip t)).length ≤ 5 := by omega
          simp only [Bool.or_eq_true, Bool.and_eq_true, beq_iff_eq, decide_eq_true_eq]
          constructor
          · intro hb
            exact ⟨by trivial, hall, hle, by tauto⟩
          · rintro ⟨-, -, -, hd⟩
            tauto
  · intro hv
    have hcs : pstrip catsInput = catsInput := by decide
    have hic : is_complete_structure pyValid catsInput = false := by
      unfold is_complete_structure is_complete_core is_valid_python_structure
      rw [hcs]
      rw [if_neg (by decide : ¬(catsInput = [])),
          if_neg (by decide : ¬(has_unclosed_strings catsInput = true)),
          if_neg (by simp [hv]),
          if_neg (by decide :
            ¬((request_indicators.any
                fun w => pyContainsSub (pyToLower catsInput) w) = true)),
          if_neg (by decide), if_neg (by decide)]
    have hinc : is_incomplete_structure pyValid catsInput = true := by
      unfold is_incomplete_structure is_incomplete_core
      rw [hcs]
      rw [if_neg (by simp [hic]),
          if_neg (by decide :
            ¬((request_words.any
                fun w => pyContainsSub (pyToLower catsInput) w) = true)),
          if_neg (by decide : ¬(5 < (splitWs catsInput).length))]
      decide
    refine ⟨hinc, ?_, ?_⟩ <;> simp [handle_multi_line_input, hinc]

/-- Witness for `c8_theorem`'s scenario-D part under the rejecting oracle. -/
theorem c8_witness :
    is_incomplete_structure (fun _ => false) catsInput = true ∧
    (handle_multi_line_input (fun _ => false) ⟨false, []⟩ catsInput).1 = none ∧
    (handle_multi_line_input (fun _ => false) ⟨false, []⟩ catsInput).2
      = ⟨true, catsInput⟩ :=
  (c8_theorem (fun _ => false) catsInput).2 rfl

/-! ### Claim C3: the retry loop (`process_request_with_retry`, lines
1233-1252, and `MAX_RETRIES`, line 25) -/

/-- `MAX_RETRIES` (line 25). -/
def MAX_RETRIES : Nat := 3

/-- Outcome of one `process_request` call: a returned boolean, or a raised
exception (caught by the loop's `except Exception` arm). -/
inductive AttemptOutcome where
  | ok (success : Bool)
  | exc
deriving DecidableEq

/-- The `for attempt in range(MAX_RETRIES)` loop of
`process_request_with_retry`: attempt number `made` is next, `fuel` loop
iterations remain, and the environment's outcome of attempt `k` is `f k`.
A successful attempt returns `True` immediately; a `False` return or an
exception continues the loop; an exhausted range prints the failure message
and returns `False`.  The second component counts the attempts made. -/
def retryGo (f : Nat → AttemptOutcome) : Nat → Nat → Bool × Nat
  | made, 0 => (false, made)
  | made, fuel + 1 =>
    match f made with
    | .ok true => (true, made + 1)
    | .ok false => retryGo f (made + 1) fuel
    | .exc => retryGo f (made + 1) fuel

/-- `process_request_with_retry` (lines 1233-1252). -/
def process_request_with_retry (f : Nat → AttemptOutcome) : Bool × Nat :=
  retryGo f 0 MAX_RETRIES

lemma retryGo_step (f : Nat → AttemptOutcome) (made fuel : Nat)
    (h : f made ≠ AttemptOutcome.ok true) :
    retryGo f made (fuel + 1) = retryGo f (made + 1) fuel := by
  cases hf : f made with
  | ok b =>
    cases b with
    | true => exact absurd hf h
    | false => simp [retryGo, hf]
  | exc => simp [retryGo, hf]

/-- C3: when every attempt fails (returns `False` or raises), the retry loop
makes exactly `MAX_RETRIES = 3` attempts — never a fourth — and then reports
failure to the caller. -/
theorem c3_retry_bound (f : Nat → AttemptOutcome)
    (h : ∀ k, k < MAX_RETRIES → f k ≠ AttemptOutcome.ok true) :
    process_request_with_retry f = (false, 3) ∧ MAX_RETRIES = 3 := by
  refine ⟨?_, rfl⟩
  show retryGo f 0 3 = (false, 3)
  rw [retryGo_step f 0 2 (h 0 (by decide)), retryGo_step f 1 1 (h 1 (by decide)),
      retryGo_step f 2 0 (h 2 (by decide))]
  rfl

/-- Witness for `c3_retry_bound`: every attempt raises. -/
theorem c3_witness :
    process_request_with_retry (fun _ => AttemptOutcome.exc) = (false, 3) := by
  exact (c3_retry_bound (fun _ => AttemptOutcome.exc)
    (by intro k _ h; exact AttemptOutcome.noConfusion h)).1

/-! ### Claim C4: backups before overwriting (`create_backup`, lines
1134-1148; `save_code`, lines 1174-1193) -/

/-- `BACKUP_BEFORE_VALIDATION` (line 37). -/
def BACKUP_BEFORE_VALIDATION : Bool := true

/-- `ENABLE_VALIDATION_LOOP` (line 30). -/
def ENABLE_VALIDATION_LOOP : Bool := true

/-- Filesystem model: a partial map from paths to file contents. -/
def Fs : Type := String → Option String

/-- Writing one file. -/
def fsWrite (fs : Fs) (p c : String) : Fs :=
  fun q => if q = p then some c else fs q

/-- `create_backup` (lines 1134-1148): returns `True` immediately when
backups are disabled or the target does not exist; otherwise `shutil.copy2`
copies the target to the timestamped backup path — `copyOk` models that copy
succeeding; the `except` arm prints a warning, leaves the filesystem
unchanged and returns `False`. -/
def create_backup (fs : Fs) (filepath backupPath : String) (copyOk : Bool) :
    Fs × Bool :=
  if !BACKUP_BEFORE_VALIDATION || (fs filepath).isNone then (fs, true)
  else if copyOk then
    match fs filepath with
    | some c => (fsWrite fs backupPath c, true)
    | none => (fs, true)
  else (fs, false)

/-- `save_code` (lines 1174-1193): when the validation loop is enabled it
calls `create_backup` first — discarding its boolean result — then opens and
writes the target (`writeOk` models that write succeeding; its `except` arm
returns `False`, with the backup, if any, already made). -/
def save_code (fs : Fs) (code outputPath backupPath : String)
    (copyOk writeOk : Bool) : Fs × Bool :=
  let fs1 := if ENABLE_VALIDATION_LOOP then
      (create_backup fs outputPath backupPath copyOk).1
    else fs
  if writeOk then (fsWrite fs1 outputPath code, true) else (fs1, false)

/-- A filesystem holding one file `out.py` with content `old`. -/
def exC4fs : Fs := fsWrite (fun _ => none) "out.py" "old"

/-- A `save_code` run over `exC4fs` in which the backup copy fails
(`copyOk = false`) but the write succeeds. -/
def exC4run : Fs × Bool :=
  save_code exC4fs "new" "out.py" "backups/out_backup_20250801_000000.py" false true

/-- C4 counterexample: the claim "the target is not overwritten without such
a backup having been created (including when the backup copy itself fails)"
fails: `save_code` discards `create_backup`'s boolean result, so when the
copy fails the pre-existing target is overwritten anyway and no backup of its
content exists afterwards. -/
theorem c4_counterexample :
    exC4fs "out.py" = some "old" ∧
    exC4run.1 "out.py" = some "new" ∧
    exC4run.1 "backups/out_backup_20250801_000000.py" = none ∧
    exC4run.2 = true := by decide

/-- C4 amended: when the backup copy succeeds, a pre-existing target is first
copied to the backup path — at that point the target still holds its old
content — and after the save the backup still holds the pre-overwrite
content, with the target overwritten exactly when the write succeeds; when
the backup copy fails, the target is overwritten anyway. -/
theorem c4_amended (fs : Fs) (outputPath backupPath code old : String)
    (writeOk : Bool)
    (hex : fs outputPath = some old)
    (hbp : backupPath ≠ outputPath) :
    (create_backup fs outputPath backupPath true).1 backupPath = some old ∧
    (create_backup fs outputPath backupPath true).1 outputPath = some old ∧
    (save_code fs code outputPath backupPath true writeOk).1 backupPath = some old ∧
    (writeOk = true →
      (save_code fs code outputPath backupPath true writeOk).1 outputPath
        = some code) := by
  have hob : outputPath ≠ backupPath := Ne.symm hbp
  refine ⟨?_, ?_, ?_, ?_⟩ <;>
    simp only [create_backup, save_code, BACKUP_BEFORE_VALIDATION,
      ENABLE_VALIDATION_LOOP, hex] <;>
    cases writeOk <;>
    simp [fsWrite, hob, hbp, hex]

/-- Witness for `c4_amended` on the concrete one-file filesystem. -/
theorem c4_witness :
    exC4fs "out.py" = some "old" ∧
    (save_code exC4fs "new" "out.py" "b.py" true true).1 "b.py" = some "old" ∧
    (save_code exC4fs "new" "out.py" "b.py" true true).1 "out.py" = some "new" :=
  ⟨by decide,
    (c4_amended exC4fs "out.py" "b.py" "new" "old" true (by decide) (by decide)).2.2.1,
    (c4_amended exC4fs "out.py" "b.py" "new" "old" true (by decide) (by decide)).2.2.2 rfl⟩

/-! ### Claim C9: model-backend failure classification (`call_model`, lines
854-934 of `ultimate_python_generator5.py`; `run_mixtral`, lines 13-68 of
`orchestrator_best_version.py`) -/

/-- The decision `call_model` takes on the finished `ollama` subprocess
(lines 886-909): a non-zero exit code returns `None` (failure); otherwise the
stripped standard output is returned — the captured standard error is only
interpolated into a printed message and never affects the verdict. -/
def call_model_result (returncode : Int) (stdoutS _stderrS : List Char) :
    Option (List Char) :=
  if returncode ≠ 0 then none else some (pstrip stdoutS)

/-- The decision `run_mixtral` takes on the finished subprocess (lines
59-64): a non-zero exit code or non-empty captured standard error returns the
failure sentinel (the empty string, modelled as `none`); otherwise the
stripped standard output. -/
def run_mixtral_result (returncode : Int) (outStr errStr : List Char) :
    Option (List Char) :=
  if returncode ≠ 0 ∨ errStr ≠ [] then none else some (pstrip outStr)

/-- C9 counterexample: the claim "a run that exits with code zero but writes
non-empty text to standard error is treated as a failure" fails for
`call_model`: with exit code 0 and standard error `warning` it returns the
standard output as a successful response. -/
theorem c9_counterexample :
    call_model_result 0 (lc "code") (lc "warning") = some (lc "code") := by
  decide

/-- C9 amended: `run_mixtral` treats an invocation as a failure exactly when
the exit code is non-zero or the captured standard error is non-empty, but
`call_model` of the ultimate generator treats it as a failure exactly when
the exit code is non-zero — non-empty standard error with exit code zero is
accepted there as a successful response. -/
theorem c9_amended (rc : Int) (outS errS : List Char) :
    (run_mixtral_result rc outS errS = none ↔ (rc ≠ 0 ∨ errS ≠ [])) ∧
    (call_model_result rc outS errS = none ↔ rc ≠ 0) := by
  constructor
  · unfold run_mixtral_result
    by_cases h : rc ≠ 0 ∨ errS ≠ [] <;> simp [h]
  · unfold call_model_result
    by_cases h : rc ≠ 0 <;> simp [h]

/-! ### The Block Merger (`_merge_code_blocks`, lines 535-724)

A `CodeBlock` dictionary has keys `code`, and optionally `filename` and
`description` (`block.get(key, default)` falls back to a positional default).
The merge loop's enumerate index `i` is mutated by the buggy `while` loop in
the top-level-guard branch (lines 621-625), so it is carried explicitly as
`iVar` through the line scan of each block. -/

/-- One extracted code block as consumed by `_merge_code_blocks`. -/
structure MBlock where
  code : List Char
  filename : Option (List Char)
  description : Option (List Char)
deriving DecidableEq

/-- The tab character. -/
def tabC : Char := '\t'

/-- The double-quoted run guard `if __name__ == "__main__":` — the only form
the merge code recognises. -/
def guardD : List Char := lc "if __name__ == \"__main__\":"

/-- The single-quoted run guard `if __name__ == '__main__':`. -/
def guardS : List Char :=
  lc "if __name__ == " ++ [sq] ++ lc "__main__" ++ [sq] ++ [':']

/-- The shebang prefix checked at line 626. -/
def shebangL : List Char := lc "#!/usr/bin/env python3"

/-- A triple-double-quote marker. -/
def tripleQ : List Char := lc "\"\"\""

/-- One decimal digit as a character. -/
def digitChar : Nat → Char
  | 0 => '0' | 1 => '1' | 2 => '2' | 3 => '3' | 4 => '4'
  | 5 => '5' | 6 => '6' | 7 => '7' | 8 => '8' | _ => '9'

/-- Decimal digits of `n` (the Python f-string interpolation `{n}`). -/
def natStrAux : Nat → Nat → List Char
  | 0, _ => []
  | fuel + 1, n =>
    if n < 10 then [digitChar n]
    else natStrAux fuel (n / 10) ++ [digitChar (n % 10)]

/-- `str(n)` for a natural number. -/
def natStr (n : Nat) : List Char := natStrAux (n + 1) n

/-- Python `s.split(sep)` for a non-empty separator (fuel-based;
`s.length` fuel always suffices). -/
def splitOnFuel (sep : List Char) : Nat → List Char → List Char → List (List Char)
  | _, acc, [] => [acc.reverse]
  | 0, acc, rest => [acc.reverse ++ rest]
  | fuel + 1, acc, c :: t =>
    if pyStartsWith (c :: t) sep then
      acc.reverse :: splitOnFuel sep fuel [] (List.drop (sep.length - 1) t)
    else splitOnFuel sep fuel (c :: acc) t

/-- Python `s.split(sep)`. -/
def pySplitOn (s sep : List Char) : List (List Char) :=
  splitOnFuel sep s.length [] s

/-- Python `s.replace(old, new)` for non-empty `old` (fuel-based). -/
def replaceFuel (old new : List Char) : Nat → List Char → List Char
  | _, [] => []
  | 0, rest => rest
  | fuel + 1, c :: t =>
    if pyStartsWith (c :: t) old then
      new ++ replaceFuel old new fuel (List.drop (old.length - 1) t)
    else c :: replaceFuel old new fuel t

/-- Python `s.replace(old, new)`. -/
def pyReplace (s old new : List Char) : List Char :=
  replaceFuel old new s.length s

/-- `len(line) - len(line.lstrip())`: the indentation width (line 605). -/
def indentOf (l : List Char) : Nat := l.length - (plstrip l).length

/-- Insertion into a Python `set` modelled as a duplicate-free list (the
set is only ever consumed through `sorted(...)`, so the insertion position
is irrelevant). -/
def insertNew (x : List Char) (l : List (List Char)) : List (List Char) :=
  if x ∈ l then l else l ++ [x]

/-- `all_from_imports[module].add(import_part)`, creating the entry if the
module key is missing (lines 595-599). -/
def addFromImport (m p : List Char) :
    List (List Char × List (List Char)) → List (List Char × List (List Char))
  | [] => [(m, [p])]
  | (k, ps) :: t =>
    if k = m then (k, insertNew p ps) :: t else (k, ps) :: addFromImport m p t

/-- Python `<` on strings (code-point lexicographic). -/
def strLt : List Char → List Char → Bool
  | [], [] => false
  | [], _ :: _ => true
  | _ :: _, [] => false
  | a :: s, b :: t => if a = b then strLt s t else decide (a < b)

/-- Insert into a `strLt`-sorted list. -/
def insSorted (x : List Char) : List (List Char) → List (List Char)
  | [] => [x]
  | y :: t => if strLt y x then y :: insSorted x t else x :: y :: t

/-- Python `sorted` on a collection of strings. -/
def sortStrs (l : List (List Char)) : List (List Char) := l.foldr insSorted []

/-- Insert into a key-sorted association list. -/
def insSortedKV (x : List Char × List (List Char)) :
    List (List Char × List (List Char)) → List (List Char × List (List Char))
  | [] => [x]
  | y :: t => if strLt y.1 x.1 then y :: insSortedKV x t else x :: y :: t

/-- Python `sorted(d.items())`: `d` has unique keys, so this sorts by key. -/
def sortKV (l : List (List Char × List (List Char))) :
    List (List Char × List (List Char)) := l.foldr insSortedKV []

/-- The branch-4 test of the line scan (line 603):
`stripped.startswith('def main(') or stripped == 'def main():'`. -/
def isDefMainLine (l : List Char) : Bool :=
  pyStartsWith (pstrip l) (lc "def main(") || (pstrip l == lc "def main():")

/-- The buggy `while` loop of lines 623-624: advances the enumerate index `i`
while `lines[i+1]` (the *block-index*-based lookup into this block's lines)
starts with four spaces or is blank. -/
def advanceI (lines : List (List Char)) : Nat → Nat → Nat
  | 0, i => i
  | fuel + 1, i =>
    if decide (i + 1 < lines.length) &&
       (pyStartsWith (lines.getD (i + 1) []) (lc "    ") ||
        (pstrip (lines.getD (i + 1) [])).isEmpty) then
      advanceI lines fuel (i + 1)
    else i

/-- State of the per-block line scan of `_merge_code_blocks` (lines 571-627),
including the global import accumulators. -/
structure BlockScan where
  inMain : Bool
  mainIndent : Nat
  iVar : Nat
  blockImports : List (List Char)
  blockMain : List (List Char)
  blockOther : List (List Char)
  allImports : List (List Char)
  fromImports : List (List Char × List (List Char))
deriving DecidableEq

/-- One iteration of the `for line in lines` loop (lines 580-627). -/
def processLine (lines : List (List Char)) (st : BlockScan) (l : List Char) :
    BlockScan :=
  let s := pstrip l
  if (s == lc "main()") || (pyStartsWith s (lc "main(") && pyEndsWithCh s ')') then
    st
  else if pyStartsWith s (lc "import ") then
    { st with allImports := insertNew s st.allImports,
              blockImports := st.blockImports ++ [l] }
  else if pyStartsWith s (lc "from ") then
    if pyContainsSub s (lc " import ") then
      let ps := pySplitOn s (lc " import ")
      { st with fromImports :=
          addFromImport (ps.getD 0 []) (ps.getD 1 []) st.fromImports }
    else st
  else if isDefMainLine l then
    { st with inMain := true, mainIndent := indentOf l,
              blockMain := st.blockMain ++ [l] }
  else if st.inMain then
    if !s.isEmpty &&
       (pyStartsWith s (lc "def ") || pyStartsWith s (lc "class ")) &&
       !(pyStartsWith l (List.replicate (st.mainIndent + 1) ' ')) &&
       !(pyStartsWith l [tabC]) then
      { st with inMain := false, blockOther := st.blockOther ++ [l] }
    else if pyStartsWith s guardD then
      { st with inMain := false }
    else { st with blockMain := st.blockMain ++ [l] }
  else if pyStartsWith s guardD then
    { st with iVar := advanceI lines lines.length st.iVar }
  else if !(pyStartsWith s shebangL) && !(pyStartsWith s tripleQ) then
    { st with blockOther := st.blockOther ++ [l] }
  else st

/-- One collected per-block entry point (`main_functions` items). -/
structure MainFn where
  name : List Char
  code : List (List Char)
  description : List Char
deriving DecidableEq

/-- One collected body section (`other_code` items). -/
structure SectionB where
  header : List Char
  code : List Char
  description : List Char
deriving DecidableEq

/-- The cross-block accumulators of `_merge_code_blocks`. -/
structure MergeAcc where
  allImports : List (List Char)
  fromImports : List (List Char × List (List Char))
  mainFns : List MainFn
  others : List SectionB
deriving DecidableEq

/-- The section header f-string of lines 565-569 (a triple-quoted string of
four newlines separating an empty line, a `#`-rule, the description line and
another `#`-rule; written here as its lines joined by newlines, which is the
same string). -/
def sectionHeader (description filename : List Char) : List Char :=
  joinWith (lc "\n")
    [[], lc "# " ++ List.replicate 60 '=',
     lc "# " ++ description ++ lc " (from " ++ filename ++ lc ")",
     lc "# " ++ List.replicate 60 '=', []]

/-- Processing of one enumerated block (lines 559-647): scan its lines, then
store the renamed entry point and the body section. -/
def processBlock (acc : MergeAcc) (idx : Nat) (b : MBlock) : MergeAcc :=
  let filename := b.filename.getD (lc "block_" ++ natStr (idx + 1))
  let description := b.description.getD (lc "Code Block " ++ natStr (idx + 1))
  let lines := splitCh '\n' b.code
  let st := lines.foldl (processLine lines)
    ⟨false, 0, idx, [], [], [], acc.allImports, acc.fromImports⟩
  let acc1 := { acc with allImports := st.allImports,
                         fromImports := st.fromImports }
  let acc2 :=
    if st.blockMain.isEmpty then acc1
    else
      let clean0 := pyReplace (pyReplace (pyReplace filename (lc ".py") [])
        (lc "-") (lc "_")) (lc ".") (lc "_")
      let clean := if pyStartsWith clean0 (lc "script_") then
          lc "block_" ++ natStr (st.iVar + 1)
        else clean0
      { acc1 with mainFns :=
          acc1.mainFns ++ [⟨lc "main_" ++ clean, st.blockMain, description⟩] }
  if st.blockOther.isEmpty then acc2
  else { acc2 with others := acc2.others ++
    [⟨sectionHeader description filename, joinWith (lc "\n") st.blockOther,
      description⟩] }

/-- The accumulators after processing every block in order. -/
def mergeAcc (blocks : List MBlock) : MergeAcc :=
  blocks.enum.foldl (fun a ib => processBlock a ib.1 ib.2) ⟨[], [], [], []⟩

/-- The rocket emoji as stored (mojibake) in the source file. -/
def emojiRocket : List Char := lc "ðŸš€"

/-- The pin emoji as stored (mojibake) in the source file. -/
def emojiPin : List Char := lc "ðŸ“Œ"

/-- The check-mark emoji as stored (mojibake) in the source file. -/
def emojiCheck : List Char := lc "âœ…"

/-- The shebang-and-docstring header of the merged script (lines 652-664). -/
def mergeHeader (blocks : List MBlock) : List (List Char) :=
  [shebangL, tripleQ,
   lc "Comprehensive Python script merged from multiple code blocks.",
   lc "Auto-generated with anti-fragmentation merging technology."] ++
  (if 1 < blocks.length then
    (lc "Merged from " ++ natStr blocks.length ++ lc " separate code blocks:") ::
    blocks.enum.map (fun ib =>
      lc "  - " ++ ib.2.filename.getD (lc "block_" ++ natStr (ib.1 + 1)) ++
      lc ": " ++ ib.2.description.getD (lc "Code Block " ++ natStr (ib.1 + 1)))
   else []) ++
  [tripleQ, []]

/-- The sorted plain-import lines of the consolidated import section. -/
def plainImportLines (acc : MergeAcc) : List (List Char) :=
  sortStrs acc.allImports

/-- The combined from-import lines, one per module (lines 675-677). -/
def fromImportLines (acc : MergeAcc) : List (List Char) :=
  (sortKV acc.fromImports).map (fun mp =>
    mp.1 ++ lc " import " ++ joinWith (lc ", ") (sortStrs mp.2))

/-- The consolidated import section (lines 667-679). -/
def importSection (acc : MergeAcc) : List (List Char) :=
  if acc.allImports.isEmpty && acc.fromImports.isEmpty then []
  else
    lc "# Consolidated imports" ::
    plainImportLines acc ++ fromImportLines acc ++ [[]]

/-- The body sections (lines 682-685). -/
def sectionParts (others : List SectionB) : List (List Char) :=
  (others.map (fun s => [s.header, s.code, []])).flatten

/-- The per-entry lines of the unified main body (lines 696-701). -/
def mainCallLines (mfs : List MainFn) : List (List Char) :=
  (mfs.enum.map (fun imf =>
    [lc "    # Execute " ++ imf.2.description,
     lc "    print(\"\\n" ++ emojiPin ++ lc " " ++ imf.2.description ++ lc "\")",
     lc "    " ++ imf.2.name ++ lc "()"] ++
    (if imf.1 + 1 < mfs.length then [[]] else []))).flatten

/-- The unified entry point and the renamed per-block entry points
(lines 688-717). -/
def mainSection (mfs : List MainFn) : List (List Char) :=
  if mfs.isEmpty then []
  else
    [[], lc "# Unified main function", lc "def main():",
     lc "    \"\"\"Unified main function that executes all merged functionality.\"\"\"",
     lc "    print(\"" ++ emojiRocket ++ lc " Executing comprehensive merged script...\")",
     []] ++
    mainCallLines mfs ++
    [[], lc "    print(\"\\n" ++ emojiCheck ++
      lc " All sections completed successfully!\")", []] ++
    (mfs.map (fun mf =>
      [lc "def " ++ mf.name ++ lc "():",
       lc "    \"\"\"Execute " ++ mf.description ++ lc ".\"\"\""] ++
      mf.code.drop 1 ++ [[]])).flatten

/-- All lines (`merged_parts`) of the merged script (lines 650-722). -/
def mergedParts (blocks : List MBlock) : List (List Char) :=
  let acc := mergeAcc blocks
  mergeHeader blocks ++ importSection acc ++ sectionParts acc.others ++
  mainSection acc.mainFns ++ [[], guardD, lc "    main()"]

/-- `_merge_code_blocks` (lines 535-724): empty input gives the empty string,
a single block is returned unchanged, and two or more blocks are merged. -/
def mergeCodeBlocks (blocks : List MBlock) : List Char :=
  match blocks with
  | [] => []
  | [b] => b.code
  | _ => joinWith (lc "\n") (mergedParts blocks)

/-- A line counts as an executable run guard when it is exactly the
double-quoted or the single-quoted `__main__` guard at top level. -/
def lineIsGuard (l : List Char) : Bool := l == guardD || l == guardS

/-- Number of top-level run-guard lines in a script. -/
def guardLineCount (out : List Char) : Nat :=
  (splitCh '\n' out).countP lineIsGuard

/-- A line that is exactly the unified entry-point opener `def main():`. -/
def isUnifiedMainLine (l : List Char) : Bool := l == lc "def main():"

/-- Number of top-level `def main():` lines in a script. -/
def defMainLineCount (out : List Char) : Nat :=
  (splitCh '\n' out).countP isUnifiedMainLine

/-- A block whose guard is written with single quotes
(`x = 1` / `if __name__ == '__main__':` / `    run()`). -/
def c1b1 : MBlock :=
  ⟨lc "x = 1\n" ++ guardS ++ lc "\n    run()", some (lc "a.py"), some (lc "Part A")⟩

/-- A block with an ordinary `main` entry point. -/
def c1b2 : MBlock :=
  ⟨lc "def main():\n    print(2)", some (lc "b.py"), some (lc "Part B")⟩

/-- C1 counterexample: merging two blocks, one of whose guards is written
with single quotes (`if __name__ == '__main__':`), yields output containing
two top-level run-guard lines, not exactly one: the merge code only
recognises and strips the double-quoted guard form, so the single-quoted
guard passes through into the body (the merged output still parses, so this
refutes the claim's parenthetical about single-quoted guards). -/
theorem c1_counterexample :
    guardLineCount (mergeCodeBlocks [c1b1, c1b2]) = 2 := by decide

/-- The first from-import block of the claim's own example. -/
def c2b1 : MBlock :=
  ⟨lc "from os import path, sep\nx = 1", some (lc "a.py"), some (lc "Part A")⟩

/-- The second from-import block of the claim's own example. -/
def c2b2 : MBlock :=
  ⟨lc "from os import path\ny = 2", some (lc "b.py"), some (lc "Part B")⟩

/-- C2 counterexample: on the claim's own example — merging
`from os import path, sep` with `from os import path` — the merged output's
single combined line for module `os` is `from os import path, path, sep`, in
which the imported name `path` appears twice: the union is taken over the
textual name-list fragments after ` import `, not over individual imported
names. -/
theorem c2_counterexample :
    (splitCh '\n' (mergeCodeBlocks [c2b1, c2b2])).countP
      (fun l => pyStartsWith l (lc "from os import")) = 1 ∧
    (splitCh '\n' (mergeCodeBlocks [c2b1, c2b2])).filter
      (fun l => pyStartsWith l (lc "from os import"))
      = [lc "from os import path, path, sep"] := by decide

/-! ### Infrastructure for the general merge theorems -/

lemma pyStartsWith_iff (s p : List Char) : pyStartsWith s p = true ↔ p <+: s := by
  induction p generalizing s with
  | nil => simp [pyStartsWith]
  | cons d p ih =>
    cases s with
    | nil => simp [pyStartsWith]
    | cons c s =>
      simp only [pyStartsWith, Bool.and_eq_true, decide_eq_true_eq, ih,
        List.cons_prefix_cons]
      exact ⟨fun ⟨h1, h2⟩ => ⟨h1.symm, h2⟩, fun ⟨h1, h2⟩ => ⟨h1.symm, h2⟩⟩

lemma pyStartsWith_append_self (x y : List Char) :
    pyStartsWith (x ++ y) x = true := by
  rw [pyStartsWith_iff]
  exact List.prefix_append x y

lemma pyStartsWith_false_of {s a b : List Char} (ha : pyStartsWith s a = true)
    (h1 : ¬ a <+: b) (h2 : ¬ b <+: a) : pyStartsWith s b = false := by
  cases hb : pyStartsWith s b with
  | false => rfl
  | true =>
    rcases List.prefix_or_prefix_of_prefix ((pyStartsWith_iff s a).1 ha)
      ((pyStartsWith_iff s b).1 hb) with h | h
    · exact absurd h h1
    · exact absurd h h2

lemma ne_of_startsWith {l m x : List Char} (hl : pyStartsWith l x = true)
    (hm : pyStartsWith m x = false) : l ≠ m := by
  intro he
  rw [he] at hl
  exact absurd hl (by simp [hm])

lemma not_guard_of_prefix {y : List Char} (x : List Char)
    (h1 : pyStartsWith guardD x = false) (h2 : pyStartsWith guardS x = false) :
    lineIsGuard (x ++ y) = false := by
  have hgd : x ++ y ≠ guardD := ne_of_startsWith (pyStartsWith_append_self x y) h1
  have hgs : x ++ y ≠ guardS := ne_of_startsWith (pyStartsWith_append_self x y) h2
  simp [lineIsGuard, hgd, hgs]

lemma not_defmain_of_prefix {y : List Char} (x : List Char)
    (h : pyStartsWith (lc "def main():") x = false) :
    ((x ++ y) == lc "def main():") = false := by
  have := ne_of_startsWith (pyStartsWith_append_self x y) h
  simp [this]

lemma mem_plstrip {c : Char} {l : List Char} (h : c ∈ plstrip l) : c ∈ l :=
  (List.dropWhile_sublist _).subset h

lemma mem_pstrip {c : Char} {l : List Char} (h : c ∈ pstrip l) : c ∈ l := by
  unfold pstrip at h
  have h1 := mem_plstrip h
  rw [List.mem_reverse] at h1
  have h2 := mem_plstrip h1
  rwa [List.mem_reverse] at h2

lemma splitChAux_append_cons (c : Char) (b : List Char) :
    ∀ (a acc : List Char),
      splitChAux c acc (a ++ c :: b) = splitChAux c acc a ++ splitCh c b := by
  intro a
  induction a with
  | nil => intro acc; simp [splitChAux, splitCh]
  | cons d a ih =>
    intro acc
    by_cases hd : d = c
    · simp [splitChAux, hd, ih]
    · simp [splitChAux, hd, ih]

lemma splitCh_append_cons (c : Char) (a b : List Char) :
    splitCh c (a ++ c :: b) = splitCh c a ++ splitCh c b :=
  splitChAux_append_cons c b a []

lemma splitChAux_not_mem (c : Char) :
    ∀ (s acc : List Char), c ∉ s → splitChAux c acc s = [acc.reverse ++ s] := by
  intro s
  induction s with
  | nil => intro acc _; simp [splitChAux]
  | cons d t ih =>
    intro acc h
    simp only [List.mem_cons, not_or] at h
    have hd : ¬ d = c := fun he => h.1 he.symm
    simp [splitChAux, hd, ih _ h.2]

lemma splitCh_of_not_mem (c : Char) (s : List Char) (h : c ∉ s) :
    splitCh c s = [s] := by
  simpa [splitCh] using splitChAux_not_mem c s [] h

lemma splitChAux_no_sep (c : Char) :
    ∀ (s acc : List Char), c ∉ acc → ∀ p ∈ splitChAux c acc s, c ∉ p := by
  intro s
  induction s with
  | nil =>
    intro acc hacc p hp
    simp only [splitChAux, List.mem_singleton] at hp
    subst hp
    simpa using hacc
  | cons d t ih =>
    intro acc hacc p hp
    by_cases hd : d = c
    · simp only [splitChAux, if_pos hd, List.mem_cons] at hp
      rcases hp with hp | hp
      · subst hp; simpa using hacc
      · exact ih [] (by simp) p hp
    · simp only [splitChAux, if_neg hd] at hp
      refine ih (d :: acc) ?_ p hp
      simp only [List.mem_cons, not_or]
      exact ⟨fun he => hd he.symm, hacc⟩

lemma splitCh_mem_no_sep (c : Char) (s : List Char) : ∀ p ∈ splitCh c s, c ∉ p :=
  splitChAux_no_sep c s [] (by simp)

lemma splitCh_joinWith (parts : List (List Char)) (h : parts ≠ []) :
    splitCh '\n' (joinWith (lc "\n") parts) = (parts.map (splitCh '\n')).flatten := by
  induction parts with
  | nil => cases h rfl
  | cons p rest ih =>
    cases rest with
    | nil => simp [joinWith]
    | cons q t =>
      have hj : joinWith (lc "\n") (p :: q :: t)
          = p ++ '\n' :: joinWith (lc "\n") (q :: t) := by
        show p ++ lc "\n" ++ joinWith (lc "\n") (q :: t) = _
        simp [lc]
      rw [hj, splitCh_append_cons, ih (by simp)]
      simp

lemma joinWith_not_mem {c : Char} {sep : List Char} (hsep : c ∉ sep) :
    ∀ parts : List (List Char), (∀ p ∈ parts, c ∉ p) → c ∉ joinWith sep parts := by
  intro parts
  induction parts with
  | nil => simp [joinWith]
  | cons p rest ih =>
    intro h
    cases rest with
    | nil => simpa [joinWith] using h p (by simp)
    | cons q t =>
      show c ∉ p ++ sep ++ joinWith sep (q :: t)
      simp only [List.mem_append, not_or]
      exact ⟨⟨h p (by simp), hsep⟩, ih (fun x hx => h x (List.mem_cons_of_mem p hx))⟩

lemma countP_flatten (p : List Char → Bool) (ls : List (List (List Char))) :
    (ls.flatten).countP p = (ls.map (List.countP p)).sum := by
  induction ls with
  | nil => simp
  | cons a t ih => simp [List.countP_append, ih]

lemma digitChar_ne_nl (d : Nat) : digitChar d ≠ '\n' := by
  unfold digitChar
  split <;> decide

lemma natStrAux_no_nl : ∀ (fuel n : Nat), '\n' ∉ natStrAux fuel n := by
  intro fuel
  induction fuel with
  | zero => intro n; simp [natStrAux]
  | succ fuel ih =>
    intro n
    rw [natStrAux]
    by_cases h : n < 10
    · rw [if_pos h]
      intro hc
      exact digitChar_ne_nl n (List.mem_singleton.mp hc).symm
    · rw [if_neg h]
      intro hc
      rcases List.mem_append.mp hc with hc | hc
      · exact ih _ hc
      · exact digitChar_ne_nl _ (List.mem_singleton.mp hc).symm

lemma natStr_no_nl (n : Nat) : '\n' ∉ natStr n := natStrAux_no_nl _ _

lemma replaceFuel_subset (old new : List Char) :
    ∀ (fuel : Nat) (s : List Char) (c : Char),
      c ∈ replaceFuel old new fuel s → c ∈ s ∨ c ∈ new := by
  intro fuel
  induction fuel with
  | zero =>
    intro s c h
    cases s with
    | nil => simp [replaceFuel] at h
    | cons d t => exact Or.inl (by simpa [replaceFuel] using h)
  | succ fuel ih =>
    intro s c h
    cases s with
    | nil => simp [replaceFuel] at h
    | cons d t =>
      rw [replaceFuel] at h
      by_cases hp : pyStartsWith (d :: t) old = true
      · rw [if_pos hp] at h
        rcases List.mem_append.mp h with h | h
        · exact Or.inr h
        · rcases ih _ c h with h | h
          · exact Or.inl (List.mem_cons_of_mem d (List.drop_subset _ _ h))
          · exact Or.inr h
      · rw [if_neg hp] at h
        rcases List.mem_cons.mp h with h | h
        · exact Or.inl (by simp [h])
        · rcases ih t c h with h | h
          · exact Or.inl (List.mem_cons_of_mem d h)
          · exact Or.inr h

lemma pyReplace_no_nl {s : List Char} (old new : List Char) (hs : '\n' ∉ s)
    (hn : '\n' ∉ new) : '\n' ∉ pyReplace s old new := by
  intro h
  rcases replaceFuel_subset old new s.length s '\n' h with h | h
  · exact hs h
  · exact hn h

lemma splitOnFuel_subset (sep : List Char) :
    ∀ (fuel : Nat) (acc s p : List Char) (c : Char),
      p ∈ splitOnFuel sep fuel acc s → c ∈ p → c ∈ acc ∨ c ∈ s := by
  intro fuel
  induction fuel with
  | zero =>
    intro acc s p c hp hc
    cases s with
    | nil =>
      simp only [splitOnFuel, List.mem_singleton] at hp
      subst hp
      exact Or.inl (by simpa using hc)
    | cons d t =>
      simp only [splitOnFuel, List.mem_singleton] at hp
      subst hp
      rcases List.mem_append.mp hc with hc | hc
      · exact Or.inl (by simpa using hc)
      · exact Or.inr hc
  | succ fuel ih =>
    intro acc s p c hp hc
    cases s with
    | nil =>
      simp only [splitOnFuel, List.mem_singleton] at hp
      subst hp
      exact Or.inl (by simpa using hc)
    | cons d t =>
      rw [splitOnFuel] at hp
      by_cases hs : pyStartsWith (d :: t) sep = true
      · rw [if_pos hs] at hp
        rcases List.mem_cons.mp hp with hp | hp
        · subst hp
          exact Or.inl (by simpa using hc)
        · rcases ih [] _ p c hp hc with h | h
          · simp at h
          · exact Or.inr (List.mem_cons_of_mem d (List.drop_subset _ _ h))
      · rw [if_neg hs] at hp
        rcases ih (d :: acc) t p c hp hc with h | h
        · rcases List.mem_cons.mp h with h | h
          · exact Or.inr (by simp [h])
          · exact Or.inl h
        · exact Or.inr (List.mem_cons_of_mem d h)

lemma pySplitOn_no_nl {s sep : List Char} (hs : '\n' ∉ s) :
    ∀ p ∈ pySplitOn s sep, '\n' ∉ p := by
  intro p hp hc
  rcases splitOnFuel_subset sep s.length [] s p '\n' hp hc with h | h
  · simp at h
  · exact hs h

lemma insertNew_mem {x y : List Char} {l : List (List Char)}
    (h : y ∈ insertNew x l) : y ∈ l ∨ y = x := by
  unfold insertNew at h
  by_cases hx : x ∈ l
  · rw [if_pos hx] at h
    exact Or.inl h
  · rw [if_neg hx] at h
    rcases List.mem_append.mp h with h | h
    · exact Or.inl h
    · exact Or.inr (List.mem_singleton.mp h)

lemma insertNew_nodup {x : List Char} {l : List (List Char)} (h : l.Nodup) :
    (insertNew x l).Nodup := by
  unfold insertNew
  by_cases hx : x ∈ l
  · rwa [if_pos hx]
  · rw [if_neg hx]
    simpa [List.nodup_append, h] using hx

lemma addFromImport_keys (m p : List Char) :
    ∀ d : List (List Char × List (List Char)),
      (addFromImport m p d).map Prod.fst =
        if m ∈ d.map Prod.fst then d.map Prod.fst else d.map Prod.fst ++ [m] := by
  intro d
  induction d with
  | nil => simp [addFromImport]
  | cons kv t ih =>
    by_cases hk : kv.1 = m
    · have : addFromImport m p (kv :: t) = (kv.1, insertNew p kv.2) :: t := by
        rw [show (kv : List Char × List (List Char)) = (kv.1, kv.2) from rfl,
          addFromImport, if_pos hk]
      rw [this]
      simp [hk]
    · have : addFromImport m p (kv :: t) = (kv.1, kv.2) :: addFromImport m p t := by
        rw [show (kv : List Char × List (List Char)) = (kv.1, kv.2) from rfl,
          addFromImport, if_neg hk]
      rw [this]
      have hmk : ¬ m = kv.1 := fun h => hk h.symm
      by_cases hm : m ∈ t.map Prod.fst
      · simp [ih, hm, hmk]
      · simp [ih, hm, hmk]

lemma addFromImport_keys_nodup {m p : List Char}
    {d : List (List Char × List (List Char))} (h : (d.map Prod.fst).Nodup) :
    ((addFromImport m p d).map Prod.fst).Nodup := by
  rw [addFromImport_keys]
  by_cases hm : m ∈ d.map Prod.fst
  · rwa [if_pos hm]
  · rw [if_neg hm]
    simpa [List.nodup_append, h] using hm

lemma addFromImport_mem {m p : List Char} :
    ∀ (d : List (List Char × List (List Char))) (mp : List Char × List (List Char)),
      mp ∈ addFromImport m p d →
      (∃ mp' ∈ d, mp.1 = mp'.1 ∧ ∀ q ∈ mp.2, q ∈ mp'.2 ∨ q = p) ∨
      (mp.1 = m ∧ mp.2 = [p]) := by
  intro d
  induction d with
  | nil =>
    intro mp h
    simp only [addFromImport, List.mem_singleton] at h
    subst h
    exact Or.inr ⟨rfl, rfl⟩
  | cons kv t ih =>
    intro mp h
    by_cases hk : kv.1 = m
    · rw [show (kv : List Char × List (List Char)) = (kv.1, kv.2) from rfl,
        addFromImport, if_pos hk] at h
      rcases List.mem_cons.mp h with h | h
      · refine Or.inl ⟨kv, by simp, by rw [h], fun q hq => ?_⟩
        rw [h] at hq
        exact insertNew_mem hq
      · exact Or.inl ⟨mp, List.mem_cons_of_mem _ h, rfl, fun q hq => Or.inl hq⟩
    · rw [show (kv : List Char × List (List Char)) = (kv.1, kv.2) from rfl,
        addFromImport, if_neg hk] at h
      rcases List.mem_cons.mp h with h | h
      · refine Or.inl ⟨kv, by simp, by rw [h], fun q hq => ?_⟩
        rw [h] at hq
        exact Or.inl hq
      · rcases ih mp h with ⟨mp', hmp', he, hq⟩ | h
        · exact Or.inl ⟨mp', List.mem_cons_of_mem _ hmp', he, hq⟩
        · exact Or.inr h

lemma addFromImport_parts_nodup {m p : List Char}
    {d : List (List Char × List (List Char))}
    (h : ∀ mp ∈ d, mp.2.Nodup) :
    ∀ mp ∈ addFromImport m p d, mp.2.Nodup := by
  intro mp hmp
  induction d with
  | nil =>
    simp only [addFromImport, List.mem_singleton] at hmp
    subst hmp
    simp
  | cons kv t ih =>
    by_cases hk : kv.1 = m
    · rw [show (kv : List Char × List (List Char)) = (kv.1, kv.2) from rfl,
        addFromImport, if_pos hk] at hmp
      rcases List.mem_cons.mp hmp with he | he
      · subst he
        exact insertNew_nodup (h kv (by simp))
      · exact h mp (List.mem_cons_of_mem _ he)
    · rw [show (kv : List Char × List (List Char)) = (kv.1, kv.2) from rfl,
        addFromImport, if_neg hk] at hmp
      rcases List.mem_cons.mp hmp with he | he
      · subst he
        exact h kv (by simp)
      · exact ih (fun x hx => h x (List.mem_cons_of_mem _ hx)) he

/-- A line that may appear verbatim in a merged body section: it is not a
top-level guard opener, not a `def main` opener, and is a single line. -/
def okLine (l : List Char) : Prop :=
  pyStartsWith (pstrip l) (lc "if __name__") = false ∧
  isDefMainLine l = false ∧ '\n' ∉ l

/-- Hypothesis of the amended claim C1 on one line: any guard opener in it is
written in the double-quoted form. -/
def goodGuardLine (l : List Char) : Prop :=
  pyStartsWith (pstrip l) (lc "if __name__") = true →
  pyStartsWith (pstrip l) guardD = true

instance (l : List Char) : Decidable (goodGuardLine l) := by
  unfold goodGuardLine
  infer_instance

/-- Invariant of the per-block line scan. -/
structure ScanInv (st : BlockScan) : Prop where
  other : ∀ x ∈ st.blockOther, okLine x
  mainHead : ∀ h rest, st.blockMain = h :: rest →
    isDefMainLine h = true ∧ ∀ x ∈ rest, okLine x
  inMainNe : st.inMain = true → st.blockMain ≠ []
  impPre : ∀ x ∈ st.allImports, pyStartsWith x (lc "import ") = true ∧ '\n' ∉ x
  impNodup : st.allImports.Nodup
  fromNl : ∀ mp ∈ st.fromImports, '\n' ∉ mp.1 ∧ ∀ p ∈ mp.2, '\n' ∉ p
  fromKeys : (st.fromImports.map Prod.fst).Nodup
  fromParts : ∀ mp ∈ st.fromImports, mp.2.Nodup

lemma bool_neg {b : Bool} (h : ¬ b = true) : b = false := by
  cases b
  · rfl
  · exact absurd rfl h

lemma getD_no_nl {s sep : List Char} (hs : '\n' ∉ s) (i : Nat) :
    '\n' ∉ (pySplitOn s sep).getD i [] := by
  rw [List.getD_eq_getElem?_getD]
  cases h : (pySplitOn s sep)[i]? with
  | none => simp
  | some p =>
    simpa using pySplitOn_no_nl hs p (List.getElem?_mem h)

lemma processLine_step (lines : List (List Char)) (st : BlockScan) (l : List Char)
    (hgood : goodGuardLine l) (hnl : '\n' ∉ l)
    (hbudget : isDefMainLine l = true → st.blockMain.countP isDefMainLine = 0)
    (hinv : ScanInv st) :
    ScanInv (processLine lines st l) ∧
    (processLine lines st l).blockMain.countP isDefMainLine ≤
      st.blockMain.countP isDefMainLine + List.countP isDefMainLine [l] := by
  have hnlps : '\n' ∉ pstrip l := fun h => hnl (mem_pstrip h)
  simp only [processLine]
  split_ifs with h1 h2 h3 h4 h5 h6 h7 h8 h9 h10
  -- branch 1: main()-call line skipped
  · exact ⟨hinv, by simp⟩
  -- branch 2: import line
  · refine ⟨⟨hinv.other, hinv.mainHead, hinv.inMainNe, ?_, insertNew_nodup hinv.impNodup,
      hinv.fromNl, hinv.fromKeys, hinv.fromParts⟩, by simp⟩
    intro x hx
    rcases insertNew_mem hx with hx | hx
    · exact hinv.impPre x hx
    · subst hx
      exact ⟨h2, hnlps⟩
  -- branch 3: from-import line carrying " import "
  · refine ⟨⟨hinv.other, hinv.mainHead, hinv.inMainNe, hinv.impPre, hinv.impNodup,
      ?_, addFromImport_keys_nodup hinv.fromKeys,
      addFromImport_parts_nodup hinv.fromParts⟩, by simp⟩
    intro mp hmp
    rcases addFromImport_mem _ mp hmp with ⟨mp', hmp', he, hq⟩ | ⟨he1, he2⟩
    · refine ⟨he ▸ (hinv.fromNl mp' hmp').1, fun q hq' => ?_⟩
      rcases hq q hq' with h | h
      · exact (hinv.fromNl mp' hmp').2 q h
      · subst h
        exact getD_no_nl hnlps 1
    · refine ⟨he1 ▸ getD_no_nl hnlps 0, fun q hq' => ?_⟩
      rw [he2] at hq'
      rcases List.mem_singleton.mp hq' with rfl
      exact getD_no_nl hnlps 1
  -- branch 3': from-line without " import "
  · exact ⟨hinv, by simp⟩
  -- branch 4: def main line
  · have hbm : st.blockMain = [] := by
      have h0 := hbudget h5
      cases hb : st.blockMain with
      | nil => rfl
      | cons h0' r0 =>
        exfalso
        have hhd := (hinv.mainHead h0' r0 hb).1
        rw [hb, List.countP_cons, hhd] at h0
        simp at h0
    refine ⟨⟨hinv.other, ?_, fun _ => by simp [hbm], hinv.impPre, hinv.impNodup,
      hinv.fromNl, hinv.fromKeys, hinv.fromParts⟩, ?_⟩
    · intro h rest he
      rw [hbm] at he
      simp only [List.nil_append, List.cons.injEq] at he
      obtain ⟨rfl, rfl⟩ := he
      exact ⟨h5, by simp⟩
    · simp [List.countP_append]
  -- branch 5a: def/class line ends the main collection, goes to the body
  · have h7' := h7
    simp only [Bool.and_eq_true, Bool.or_eq_true] at h7'
    have hdc := h7'.1.1.2
    have hnotif : pyStartsWith (pstrip l) (lc "if __name__") = false := by
      rcases hdc with hd | hd
      · exact pyStartsWith_false_of hd (by decide) (by decide)
      · exact pyStartsWith_false_of hd (by decide) (by decide)
    refine ⟨⟨?_, hinv.mainHead, by simp, hinv.impPre, hinv.impNodup,
      hinv.fromNl, hinv.fromKeys, hinv.fromParts⟩, by simp⟩
    intro x hx
    rcases List.mem_append.mp hx with hx | hx
    · exact hinv.other x hx
    · rcases List.mem_singleton.mp hx with rfl
      exact ⟨hnotif, bool_neg h5, hnl⟩
  -- branch 5b: double-quoted guard inside main: skipped
  · exact ⟨⟨hinv.other, hinv.mainHead, by simp, hinv.impPre, hinv.impNodup,
      hinv.fromNl, hinv.fromKeys, hinv.fromParts⟩, by simp⟩
  -- branch 5c: main-body line collected
  · have hne := hinv.inMainNe h6
    have hnotif : pyStartsWith (pstrip l) (lc "if __name__") = false := by
      cases hx : pyStartsWith (pstrip l) (lc "if __name__") with
      | false => rfl
      | true => exact absurd (hgood hx) h8
    have hok : okLine l := ⟨hnotif, bool_neg h5, hnl⟩
    cases hb : st.blockMain with
    | nil => exact absurd hb hne
    | cons h0 r0 =>
      refine ⟨⟨hinv.other, ?_, fun _ => by simp, hinv.impPre, hinv.impNodup,
        hinv.fromNl, hinv.fromKeys, hinv.fromParts⟩, ?_⟩
      · intro h rest he
        simp only [List.cons_append, List.cons.injEq] at he
        obtain ⟨rfl, rfl⟩ := he
        refine ⟨(hinv.mainHead h0 r0 hb).1, fun x hx => ?_⟩
        rcases List.mem_append.mp hx with hx | hx
        · exact (hinv.mainHead h0 r0 hb).2 x hx
        · rcases List.mem_singleton.mp hx with rfl
          exact hok
      · simp [List.countP_cons, List.countP_append]
        omega
  -- branch 6: top-level guard: only the index is advanced
  · exact ⟨⟨hinv.other, hinv.mainHead, hinv.inMainNe, hinv.impPre, hinv.impNodup,
      hinv.fromNl, hinv.fromKeys, hinv.fromParts⟩, by simp⟩
  -- branch 7: ordinary body line
  · have hnotif : pyStartsWith (pstrip l) (lc "if __name__") = false := by
      cases hx : pyStartsWith (pstrip l) (lc "if __name__") with
      | false => rfl
      | true => exact absurd (hgood hx) h9
    refine ⟨⟨?_, hinv.mainHead, hinv.inMainNe, hinv.impPre, hinv.impNodup,
      hinv.fromNl, hinv.fromKeys, hinv.fromParts⟩, by simp⟩
    intro x hx
    rcases List.mem_append.mp hx with hx | hx
    · exact hinv.other x hx
    · rcases List.mem_singleton.mp hx with rfl
      exact ⟨hnotif, bool_neg h5, hnl⟩
  -- branch 8: shebang / docstring marker dropped
  · exact ⟨hinv, by simp⟩

lemma scan_fold (lines : List (List Char)) :
    ∀ (ls : List (List Char)) (st : BlockScan),
      (∀ l ∈ ls, goodGuardLine l) → (∀ l ∈ ls, '\n' ∉ l) →
      ls.countP isDefMainLine + st.blockMain.countP isDefMainLine ≤ 1 →
      ScanInv st →
      ScanInv (ls.foldl (processLine lines) st) ∧
      (ls.foldl (processLine lines) st).blockMain.countP isDefMainLine ≤
        ls.countP isDefMainLine + st.blockMain.countP isDefMainLine := by
  intro ls
  induction ls with
  | nil =>
    intro st _ _ _ hinv
    exact ⟨hinv, by simp⟩
  | cons l rest ih =>
    intro st hg hn hbud hinv
    have hbudL : isDefMainLine l = true → st.blockMain.countP isDefMainLine = 0 := by
      intro hd
      rw [List.countP_cons] at hbud
      rw [hd] at hbud
      simp at hbud
      omega
    have hstep := processLine_step lines st l (hg l (by simp)) (hn l (by simp))
      hbudL hinv
    have hbud' : rest.countP isDefMainLine +
        (processLine lines st l).blockMain.countP isDefMainLine ≤ 1 := by
      have h2 := hstep.2
      rw [List.countP_cons] at hbud
      simp only [List.countP_cons, List.countP_nil] at h2
      omega
    have hrec := ih (processLine lines st l)
      (fun x hx => hg x (List.mem_cons_of_mem l hx))
      (fun x hx => hn x (List.mem_cons_of_mem l hx)) hbud' hstep.1
    refine ⟨hrec.1, ?_⟩
    have h2 := hstep.2
    have h3 := hrec.2
    rw [List.countP_cons]
    simp only [List.countP_cons, List.countP_nil] at h2
    simp only [List.foldl_cons]
    omega

lemma processLine_blockMain_mono (lines : List (List Char)) (st : BlockScan)
    (l : List Char) (h : st.blockMain ≠ []) :
    (processLine lines st l).blockMain ≠ [] := by
  simp only [processLine]
  split_ifs <;> simp_all [List.append_eq_nil]

lemma processLine_defMain (lines : List (List Char)) (st : BlockScan)
    (l : List Char) (hd : isDefMainLine l = true) :
    processLine lines st l =
      { st with inMain := true, mainIndent := indentOf l,
                blockMain := st.blockMain ++ [l] } := by
  have hd' := hd
  simp only [isDefMainLine, Bool.or_eq_true] at hd'
  have hc1 : (pstrip l == lc "main()" ||
      pyStartsWith (pstrip l) (lc "main(") && pyEndsWithCh (pstrip l) ')') = false := by
    rcases hd' with hs | hs
    · have hm : pyStartsWith (pstrip l) (lc "main(") = false :=
        pyStartsWith_false_of hs (by decide) (by decide)
      have he : (pstrip l == lc "main()") = false := by
        cases hq : (pstrip l == lc "main()") with
        | false => rfl
        | true =>
          rw [eq_of_beq hq] at hs
          exact absurd hs (by decide)
      rw [he, hm]
      rfl
    · rw [eq_of_beq hs]
      decide
  have hc2 : pyStartsWith (pstrip l) (lc "import ") = false := by
    rcases hd' with hs | hs
    · exact pyStartsWith_false_of hs (by decide) (by decide)
    · rw [eq_of_beq hs]; decide
  have hc3 : pyStartsWith (pstrip l) (lc "from ") = false := by
    rcases hd' with hs | hs
    · exact pyStartsWith_false_of hs (by decide) (by decide)
    · rw [eq_of_beq hs]; decide
  simp only [processLine]
  rw [if_neg (by simp [hc1]), if_neg (by simp [hc2]), if_neg (by simp [hc3]),
    if_pos hd]

lemma scan_blockMain_ne (lines : List (List Char)) :
    ∀ (ls : List (List Char)) (st : BlockScan),
      ((∃ l ∈ ls, isDefMainLine l = true) ∨ st.blockMain ≠ []) →
      (ls.foldl (processLine lines) st).blockMain ≠ [] := by
  intro ls
  induction ls with
  | nil =>
    intro st h
    rcases h with ⟨l, hl, _⟩ | h
    · simp at hl
    · exact h
  | cons l rest ih =>
    intro st h
    simp only [List.foldl_cons]
    rcases h with ⟨x, hx, hdx⟩ | h
    · rcases List.mem_cons.mp hx with rfl | hx
      · refine ih _ (Or.inr ?_)
        rw [processLine_defMain lines st x hdx]
        simp [List.append_eq_nil]
      · exact ih _ (Or.inl ⟨x, hx, hdx⟩)
    · exact ih _ (Or.inr (processLine_blockMain_mono lines st l h))

/-- Hypotheses of the amended claim C1 on one block: guards are written in
the double-quoted form, at most one `def main` opener, and single-line
filename/description fields (per the data model, a filename is an
identifier-plus-extension and a description one line of prose). -/
def goodBlock (b : MBlock) : Prop :=
  (∀ l ∈ splitCh '\n' b.code, goodGuardLine l) ∧
  (splitCh '\n' b.code).countP isDefMainLine ≤ 1 ∧
  (∀ f, b.filename = some f → '\n' ∉ f) ∧
  (∀ d, b.description = some d → '\n' ∉ d)

/-- Invariant of the cross-block accumulators. -/
structure AccInv (acc : MergeAcc) : Prop where
  mains : ∀ mf ∈ acc.mainFns,
    (∀ x ∈ mf.code.drop 1, okLine x) ∧ '\n' ∉ mf.description ∧
    pyStartsWith mf.name (lc "main_") = true ∧ '\n' ∉ mf.name
  sects : ∀ s ∈ acc.others,
    ∃ d f bo, s.header = sectionHeader d f ∧ '\n' ∉ d ∧ '\n' ∉ f ∧
      s.code = joinWith (lc "\n") bo ∧ bo ≠ [] ∧ ∀ x ∈ bo, okLine x
  imps : ∀ x ∈ acc.allImports, pyStartsWith x (lc "import ") = true ∧ '\n' ∉ x
  impNodup : acc.allImports.Nodup
  fromNl : ∀ mp ∈ acc.fromImports, '\n' ∉ mp.1 ∧ ∀ p ∈ mp.2, '\n' ∉ p
  fromKeys : (acc.fromImports.map Prod.fst).Nodup
  fromParts : ∀ mp ∈ acc.fromImports, mp.2.Nodup

lemma processBlock_inv (acc : MergeAcc) (idx : Nat) (b : MBlock)
    (hb : goodBlock b) (hacc : AccInv acc) :
    AccInv (processBlock acc idx b) ∧
    (acc.mainFns ≠ [] → (processBlock acc idx b).mainFns ≠ []) ∧
    ((∃ l ∈ splitCh '\n' b.code, isDefMainLine l = true) →
      (processBlock acc idx b).mainFns ≠ []) := by
  obtain ⟨hg, hm1, hf, hd⟩ := hb
  have hfn_nl : '\n' ∉ b.filename.getD (lc "block_" ++ natStr (idx + 1)) := by
    cases hfe : b.filename with
    | some f => exact hf f hfe
    | none =>
      simp only [Option.getD_none]
      intro hc
      rcases List.mem_append.mp hc with hc | hc
      · exact absurd hc (by decide)
      · exact natStr_no_nl _ hc
  have hdesc_nl : '\n' ∉ b.description.getD (lc "Code Block " ++ natStr (idx + 1)) := by
    cases hde : b.description with
    | some d => exact hd d hde
    | none =>
      simp only [Option.getD_none]
      intro hc
      rcases List.mem_append.mp hc with hc | hc
      · exact absurd hc (by decide)
      · exact natStr_no_nl _ hc
  have hclean_nl : ∀ fn : List Char, '\n' ∉ fn →
      '\n' ∉ pyReplace (pyReplace (pyReplace fn (lc ".py") []) (lc "-") (lc "_"))
        (lc ".") (lc "_") := by
    intro fn hfn
    exact pyReplace_no_nl _ _
      (pyReplace_no_nl _ _ (pyReplace_no_nl _ _ hfn (by simp)) (by decide))
      (by decide)
  have hinv0 : ScanInv ⟨false, 0, idx, [], [], [], acc.allImports, acc.fromImports⟩ :=
    { other := by simp
      mainHead := by intro h rest he; exact absurd he (by simp)
      inMainNe := by simp
      impPre := hacc.imps
      impNodup := hacc.impNodup
      fromNl := hacc.fromNl
      fromKeys := hacc.fromKeys
      fromParts := hacc.fromParts }
  simp only [processBlock]
  set L := splitCh '\n' b.code with hL
  set st := List.foldl (processLine L)
    ⟨false, 0, idx, [], [], [], acc.allImports, acc.fromImports⟩ L with hst
  have hsc := scan_fold L L
    ⟨false, 0, idx, [], [], [], acc.allImports, acc.fromImports⟩
    hg (splitCh_mem_no_sep '\n' b.code) (by simpa using hm1) hinv0
  rw [← hst] at hsc
  have hscinv := hsc.1
  have hmainok : ∀ hmf : st.blockMain.isEmpty = false,
      (∀ x ∈ st.blockMain.drop 1, okLine x) := by
    intro hmf
    cases hbc : st.blockMain with
    | nil => simp
    | cons h0 r0 =>
      simp only [List.drop_one, List.tail_cons]
      exact (hscinv.mainHead h0 r0 hbc).2
  have hnewmf : ∀ cl : List Char,
      (∀ x ∈ st.blockMain.drop 1, okLine x) → '\n' ∉ cl →
      (∀ x ∈ (MainFn.mk (lc "main_" ++ cl) st.blockMain
          (b.description.getD (lc "Code Block " ++ natStr (idx + 1)))).code.drop 1,
        okLine x) ∧
      '\n' ∉ (b.description.getD (lc "Code Block " ++ natStr (idx + 1))) ∧
      pyStartsWith (lc "main_" ++ cl) (lc "main_") = true ∧
      '\n' ∉ lc "main_" ++ cl := by
    intro cl hok hcl
    refine ⟨hok, hdesc_nl, pyStartsWith_append_self _ _, ?_⟩
    intro hc
    rcases List.mem_append.mp hc with hc | hc
    · exact absurd hc (by decide)
    · exact hcl hc
  have hcl_nl : '\n' ∉ (if pyStartsWith (pyReplace (pyReplace (pyReplace
      (b.filename.getD (lc "block_" ++ natStr (idx + 1))) (lc ".py") [])
      (lc "-") (lc "_")) (lc ".") (lc "_")) (lc "script_") = true then
        lc "block_" ++ natStr (st.iVar + 1)
      else pyReplace (pyReplace (pyReplace
        (b.filename.getD (lc "block_" ++ natStr (idx + 1))) (lc ".py") [])
        (lc "-") (lc "_")) (lc ".") (lc "_")) := by
    split
    · intro hc
      rcases List.mem_append.mp hc with hc | hc
      · exact absurd hc (by decide)
      · exact natStr_no_nl _ hc
    · exact hclean_nl _ hfn_nl
  by_cases hbo : st.blockOther.isEmpty
  · rw [if_pos hbo]
    by_cases hbm : st.blockMain.isEmpty
    · rw [if_pos hbm]
      refine ⟨⟨hacc.mains, hacc.sects, hscinv.impPre, hscinv.impNodup,
        hscinv.fromNl, hscinv.fromKeys, hscinv.fromParts⟩, fun h => h, ?_⟩
      intro hex
      exact absurd (List.isEmpty_iff.mp hbm)
        (scan_blockMain_ne L L _ (Or.inl hex))
    · rw [if_neg hbm]
      refine ⟨⟨?_, hacc.sects, hscinv.impPre, hscinv.impNodup,
        hscinv.fromNl, hscinv.fromKeys, hscinv.fromParts⟩,
        fun h => by simp [List.append_eq_nil, h],
        fun _ => by simp [List.append_eq_nil]⟩
      intro mf hmf
      rcases List.mem_append.mp hmf with hmf | hmf
      · exact hacc.mains mf hmf
      · rcases List.mem_singleton.mp hmf with rfl
        exact hnewmf _ (hmainok (bool_neg hbm)) hcl_nl
  · rw [if_neg hbo]
    have hsect : ∀ s, s ∈ acc.others ++
        [SectionB.mk (sectionHeader (b.description.getD
            (lc "Code Block " ++ natStr (idx + 1)))
          (b.filename.getD (lc "block_" ++ natStr (idx + 1))))
          (joinWith (lc "\n") st.blockOther)
          (b.description.getD (lc "Code Block " ++ natStr (idx + 1)))] →
        ∃ d f bo, s.header = sectionHeader d f ∧ '\n' ∉ d ∧ '\n' ∉ f ∧
          s.code = joinWith (lc "\n") bo ∧ bo ≠ [] ∧ ∀ x ∈ bo, okLine x := by
      intro s hs
      rcases List.mem_append.mp hs with hs | hs
      · exact hacc.sects s hs
      · rcases List.mem_singleton.mp hs with rfl
        refine ⟨_, _, st.blockOther, rfl, hdesc_nl, hfn_nl, rfl, ?_, hscinv.other⟩
        intro he
        rw [he] at hbo
        exact hbo rfl
    by_cases hbm : st.blockMain.isEmpty
    · rw [if_pos hbm]
      refine ⟨⟨hacc.mains, hsect, hscinv.impPre, hscinv.impNodup,
        hscinv.fromNl, hscinv.fromKeys, hscinv.fromParts⟩, fun h => h, ?_⟩
      intro hex
      exact absurd (List.isEmpty_iff.mp hbm)
        (scan_blockMain_ne L L _ (Or.inl hex))
    · rw [if_neg hbm]
      refine ⟨⟨?_, hsect, hscinv.impPre, hscinv.impNodup,
        hscinv.fromNl, hscinv.fromKeys, hscinv.fromParts⟩,
        fun h => by simp [List.append_eq_nil, h],
        fun _ => by simp [List.append_eq_nil]⟩
      intro mf hmf
      rcases List.mem_append.mp hmf with hmf | hmf
      · exact hacc.mains mf hmf
      · rcases List.mem_singleton.mp hmf with rfl
        exact hnewmf _ (hmainok (bool_neg hbm)) hcl_nl

lemma mergeAcc_fold :
    ∀ (ibs : List (Nat × MBlock)) (acc : MergeAcc),
      (∀ ib ∈ ibs, goodBlock ib.2) → AccInv acc →
      AccInv (ibs.foldl (fun a ib => processBlock a ib.1 ib.2) acc) ∧
      ((acc.mainFns ≠ [] ∨
        ∃ ib ∈ ibs, ∃ l ∈ splitCh '\n' ib.2.code, isDefMainLine l = true) →
        (ibs.foldl (fun a ib => processBlock a ib.1 ib.2) acc).mainFns ≠ []) := by
  intro ibs
  induction ibs with
  | nil =>
    intro acc _ hacc
    refine ⟨hacc, ?_⟩
    rintro (h | ⟨ib, hib, _⟩)
    · exact h
    · simp at hib
  | cons ib rest ih =>
    intro acc hg hacc
    have hstep := processBlock_inv acc ib.1 ib.2 (hg ib (by simp)) hacc
    simp only [List.foldl_cons]
    have hrec := ih (processBlock acc ib.1 ib.2)
      (fun x hx => hg x (List.mem_cons_of_mem ib hx)) hstep.1
    refine ⟨hrec.1, ?_⟩
    rintro (h | ⟨ib', hib', hex⟩)
    · exact hrec.2 (Or.inl (hstep.2.1 h))
    · rcases List.mem_cons.mp hib' with rfl | hib'
      · exact hrec.2 (Or.inl (hstep.2.2 hex))
      · exact hrec.2 (Or.inr ⟨ib', hib', hex⟩)

lemma mergeAcc_inv (blocks : List MBlock) (hg : ∀ b ∈ blocks, goodBlock b) :
    AccInv (mergeAcc blocks) ∧
    ((∃ b ∈ blocks, ∃ l ∈ splitCh '\n' b.code, isDefMainLine l = true) →
      (mergeAcc blocks).mainFns ≠ []) := by
  have hinit : AccInv ⟨[], [], [], []⟩ :=
    { mains := by simp
      sects := by simp
      imps := by simp
      impNodup := by simp
      fromNl := by simp
      fromKeys := by simp
      fromParts := by simp }
  have henum : ∀ ib ∈ blocks.enum, goodBlock ib.2 := by
    intro ib hib
    apply hg
    have := List.mem_map_of_mem Prod.snd hib
    rwa [List.enum_map_snd] at this
  have h := mergeAcc_fold blocks.enum ⟨[], [], [], []⟩ henum hinit
  refine ⟨h.1, ?_⟩
  rintro ⟨b, hb, hex⟩
  apply h.2
  right
  have hb' : b ∈ (blocks.enum.map Prod.snd) := by rwa [List.enum_map_snd]
  rcases List.mem_map.mp hb' with ⟨ib, hib, rfl⟩
  exact ⟨ib, hib, hex⟩

/-! ### Line-level counting of the merged output -/

/-- Number of `p`-lines contributed by a list of parts once they are joined
by newlines and split back into lines. -/
def partsCount (p : List Char → Bool) (parts : List (List Char)) : Nat :=
  ((parts.map (splitCh '\n')).flatten).countP p

lemma partsCount_cons (p : List Char → Bool) (a : List Char)
    (rest : List (List Char)) :
    partsCount p (a :: rest) = (splitCh '\n' a).countP p + partsCount p rest := by
  simp [partsCount, List.countP_append]

lemma partsCount_append (p : List Char → Bool) (xs ys : List (List Char)) :
    partsCount p (xs ++ ys) = partsCount p xs + partsCount p ys := by
  simp [partsCount, List.countP_append]

lemma countP_guard_join (p : List Char → Bool) (parts : List (List Char))
    (h : parts ≠ []) :
    (splitCh '\n' (joinWith (lc "\n") parts)).countP p = partsCount p parts := by
  rw [splitCh_joinWith parts h]
  rfl

lemma countP_single_line (p : List Char → Bool) (l : List Char)
    (hnl : '\n' ∉ l) (hp : p l = false) :
    (splitCh '\n' l).countP p = 0 := by
  rw [splitCh_of_not_mem _ _ hnl]
  simp [hp]

lemma partsCount_zero (p : List Char → Bool) (parts : List (List Char))
    (h : ∀ x ∈ parts, '\n' ∉ x ∧ p x = false) : partsCount p parts = 0 := by
  induction parts with
  | nil => rfl
  | cons a rest ih =>
    rw [partsCount_cons,
      countP_single_line p a (h a (by simp)).1 (h a (by simp)).2,
      ih (fun x hx => h x (List.mem_cons_of_mem a hx))]

lemma splitCh_joinWith_of_no_nl (parts : List (List Char)) (hne : parts ≠ [])
    (h : ∀ x ∈ parts, '\n' ∉ x) :
    splitCh '\n' (joinWith (lc "\n") parts) = parts := by
  rw [splitCh_joinWith parts hne]
  induction parts with
  | nil => rfl
  | cons a rest ih =>
    simp only [List.map_cons, List.flatten_cons]
    rw [splitCh_of_not_mem _ _ (h a (by simp))]
    cases rest with
    | nil => rfl
    | cons b t =>
      rw [ih (by simp) (fun x hx => h x (List.mem_cons_of_mem a hx))]
      rfl

lemma insSorted_perm (x : List Char) (l : List (List Char)) :
    List.Perm (insSorted x l) (x :: l) := by
  induction l with
  | nil => rfl
  | cons y t ih =>
    by_cases hy : strLt y x
    · rw [insSorted, if_pos hy]
      exact (ih.cons y).trans (List.Perm.swap x y t)
    · rw [insSorted, if_neg hy]

lemma sortStrs_perm (l : List (List Char)) : List.Perm (sortStrs l) l := by
  induction l with
  | nil => rfl
  | cons a t ih =>
    exact (insSorted_perm a (sortStrs t)).trans (ih.cons a)

lemma sortStrs_mem {x : List Char} {l : List (List Char)}
    (h : x ∈ sortStrs l) : x ∈ l := (sortStrs_perm l).subset h

lemma sortStrs_nodup {l : List (List Char)} (h : l.Nodup) :
    (sortStrs l).Nodup := ((sortStrs_perm l).nodup_iff).mpr h

lemma insSortedKV_perm (x : List Char × List (List Char))
    (l : List (List Char × List (List Char))) :
    List.Perm (insSortedKV x l) (x :: l) := by
  induction l with
  | nil => rfl
  | cons y t ih =>
    by_cases hy : strLt y.1 x.1
    · rw [insSortedKV, if_pos hy]
      exact (ih.cons y).trans (List.Perm.swap x y t)
    · rw [insSortedKV, if_neg hy]

lemma sortKV_perm (l : List (List Char × List (List Char))) :
    List.Perm (sortKV l) l := by
  induction l with
  | nil => rfl
  | cons a t ih =>
    exact (insSortedKV_perm a (sortKV t)).trans (ih.cons a)

lemma pyContainsSub_of_infix {s n : List Char} (h : n <:+: s) :
    pyContainsSub s n = true := by
  induction s with
  | nil =>
    have hn : n = [] := by
      rcases h with ⟨a, c, hac⟩
      have h1 := List.append_eq_nil.mp hac
      exact (List.append_eq_nil.mp h1.1).2
    rw [hn]
    decide
  | cons d t ih =>
    rw [pyContainsSub]
    rcases (List.infix_cons_iff.mp h) with h | h
    · rw [(pyStartsWith_iff (d :: t) n).mpr h]
      rfl
    · by_cases hp : pyStartsWith (d :: t) n = true
      · rw [hp]
        rfl
      · rw [bool_neg hp]
        exact ih h

lemma pyContainsSub_append_mid (a b c : List Char) :
    pyContainsSub (a ++ b ++ c) b = true :=
  pyContainsSub_of_infix ⟨a, c, by simp⟩

lemma ne_of_contains {l m n : List Char} (hl : pyContainsSub l n = true)
    (hm : pyContainsSub m n = false) : l ≠ m := by
  intro he
  rw [he] at hl
  exact absurd hl (by simp [hm])

/-- The facts needed of a line predicate (`lineIsGuard` or
`isUnifiedMainLine`) to count its occurrences in the merged output: it is
false on every line shape the merge emits apart from the designated ones. -/
structure LinePred (p : List Char → Bool) : Prop where
  empty : p [] = false
  hash : ∀ y, p (lc "# " ++ y) = false
  shebang : ∀ y, p (lc "#!" ++ y) = false
  triple : p tripleQ = false
  sp4 : ∀ y, p (lc "    " ++ y) = false
  dash : ∀ y, p (lc "  - " ++ y) = false
  merged : ∀ y, p (lc "Merged from " ++ y) = false
  s1 : p (lc "Comprehensive Python script merged from multiple code blocks.") = false
  s2 : p (lc "Auto-generated with anti-fragmentation merging technology.") = false
  impLine : ∀ x, pyStartsWith x (lc "import ") = true → p x = false
  fromLine : ∀ x, pyContainsSub x (lc " import ") = true → p x = false
  okL : ∀ x, okLine x → p x = false
  defLine : ∀ z, p (lc "def main_" ++ z) = false

lemma linePred_guard : LinePred lineIsGuard :=
  { empty := by decide
    hash := fun y => not_guard_of_prefix (lc "# ") (by decide) (by decide)
    shebang := fun y => not_guard_of_prefix (lc "#!") (by decide) (by decide)
    triple := by decide
    sp4 := fun y => not_guard_of_prefix (lc "    ") (by decide) (by decide)
    dash := fun y => not_guard_of_prefix (lc "  - ") (by decide) (by decide)
    merged := fun y => not_guard_of_prefix (lc "Merged from ") (by decide) (by decide)
    s1 := by decide
    s2 := by decide
    impLine := fun x hx => by
      have h1 : x ≠ guardD := ne_of_startsWith hx (by decide)
      have h2 : x ≠ guardS := ne_of_startsWith hx (by decide)
      simp [lineIsGuard, h1, h2]
    fromLine := fun x hx => by
      have h1 : x ≠ guardD := ne_of_contains hx (by decide)
      have h2 : x ≠ guardS := ne_of_contains hx (by decide)
      simp [lineIsGuard, h1, h2]
    okL := fun x hx => by
      have h1 : x ≠ guardD := by
        intro he
        rw [he] at hx
        exact absurd hx.1 (by decide)
      have h2 : x ≠ guardS := by
        intro he
        rw [he] at hx
        exact absurd hx.1 (by decide)
      simp [lineIsGuard, h1, h2]
    defLine := fun z => not_guard_of_prefix (lc "def main_") (by decide) (by decide) }

lemma linePred_ums : LinePred isUnifiedMainLine :=
  { empty := by decide
    hash := fun y => not_defmain_of_prefix (lc "# ") (by decide)
    shebang := fun y => not_defmain_of_prefix (lc "#!") (by decide)
    triple := by decide
    sp4 := fun y => not_defmain_of_prefix (lc "    ") (by decide)
    dash := fun y => not_defmain_of_prefix (lc "  - ") (by decide)
    merged := fun y => not_defmain_of_prefix (lc "Merged from ") (by decide)
    s1 := by decide
    s2 := by decide
    impLine := fun x hx => by
      have h1 : x ≠ lc "def main():" := ne_of_startsWith hx (by decide)
      simp [isUnifiedMainLine, h1]
    fromLine := fun x hx => by
      have h1 : x ≠ lc "def main():" := ne_of_contains hx (by decide)
      simp [isUnifiedMainLine, h1]
    okL := fun x hx => by
      have h1 : x ≠ lc "def main():" := by
        intro he
        rw [he] at hx
        exact absurd hx.2.1 (by decide)
      simp [isUnifiedMainLine, h1]
    defLine := fun z => not_defmain_of_prefix (lc "def main_") (by decide) }

lemma fnD_no_nl (b : MBlock) (hb : goodBlock b) (k : Nat) :
    '\n' ∉ b.filename.getD (lc "block_" ++ natStr k) := by
  cases hfe : b.filename with
  | some f => exact hb.2.2.1 f hfe
  | none =>
    simp only [Option.getD_none]
    intro hc
    rcases List.mem_append.mp hc with hc | hc
    · exact absurd hc (by decide)
    · exact natStr_no_nl _ hc

lemma descD_no_nl (b : MBlock) (hb : goodBlock b) (k : Nat) :
    '\n' ∉ b.description.getD (lc "Code Block " ++ natStr k) := by
  cases hde : b.description with
  | some d => exact hb.2.2.2 d hde
  | none =>
    simp only [Option.getD_none]
    intro hc
    rcases List.mem_append.mp hc with hc | hc
    · exact absurd hc (by decide)
    · exact natStr_no_nl _ hc

lemma partsCount_flatten_map {α : Type} (p : List Char → Bool)
    (f : α → List (List Char)) (l : List α)
    (h : ∀ x ∈ l, partsCount p (f x) = 0) :
    partsCount p ((l.map f).flatten) = 0 := by
  induction l with
  | nil => rfl
  | cons a t ih =>
    simp only [List.map_cons, List.flatten_cons]
    rw [partsCount_append, h a (by simp), ih (fun x hx => h x (List.mem_cons_of_mem a hx))]

lemma mem_enum_snd {α : Type} {ib : Nat × α} {l : List α} (h : ib ∈ l.enum) :
    ib.2 ∈ l := by
  have := List.mem_map_of_mem Prod.snd h
  rwa [List.enum_map_snd] at this

lemma partsCount_mergeHeader (p : List Char → Bool) (hp : LinePred p)
    (blocks : List MBlock) (hg : ∀ b ∈ blocks, goodBlock b) :
    partsCount p (mergeHeader blocks) = 0 := by
  apply partsCount_zero
  intro x hx
  unfold mergeHeader at hx
  have hfix : x = shebangL ∨ x = tripleQ ∨
      x = lc "Comprehensive Python script merged from multiple code blocks." ∨
      x = lc "Auto-generated with anti-fragmentation merging technology." ∨
      x = [] ∨
      x ∈ (if 1 < blocks.length then
        (lc "Merged from " ++ natStr blocks.length ++ lc " separate code blocks:") ::
        blocks.enum.map (fun ib =>
          lc "  - " ++ ib.2.filename.getD (lc "block_" ++ natStr (ib.1 + 1)) ++
          lc ": " ++ ib.2.description.getD (lc "Code Block " ++ natStr (ib.1 + 1)))
        else []) := by
    rcases List.mem_append.mp hx with hx | hx
    · rcases List.mem_append.mp hx with hx | hx
      · simp only [List.mem_cons, List.mem_singleton] at hx
        tauto
      · exact Or.inr (Or.inr (Or.inr (Or.inr (Or.inr hx))))
    · simp only [List.mem_cons, List.mem_singleton] at hx
      tauto
  rcases hfix with rfl | rfl | rfl | rfl | rfl | hx'
  · exact ⟨by decide, hp.shebang (lc "/usr/bin/env python3")⟩
  · exact ⟨by decide, hp.triple⟩
  · exact ⟨by decide, hp.s1⟩
  · exact ⟨by decide, hp.s2⟩
  · exact ⟨by simp, hp.empty⟩
  · by_cases hlen : 1 < blocks.length
    · rw [if_pos hlen] at hx'
      rcases List.mem_cons.mp hx' with rfl | hx'
      · constructor
        · intro hc
          rcases List.mem_append.mp hc with hc | hc
          · rcases List.mem_append.mp hc with hc | hc
            · exact absurd hc (by decide)
            · exact natStr_no_nl _ hc
          · exact absurd hc (by decide)
        · simpa [List.append_assoc] using
            hp.merged (natStr blocks.length ++ lc " separate code blocks:")
      · rcases List.mem_map.mp hx' with ⟨ib, hib, rfl⟩
        have hb := hg ib.2 (mem_enum_snd hib)
        constructor
        · intro hc
          rcases List.mem_append.mp hc with hc | hc
          · rcases List.mem_append.mp hc with hc | hc
            · rcases List.mem_append.mp hc with hc | hc
              · exact absurd hc (by decide)
              · exact fnD_no_nl ib.2 hb _ hc
            · exact absurd hc (by decide)
          · exact descD_no_nl ib.2 hb _ hc
        · simpa [List.append_assoc] using
            hp.dash (ib.2.filename.getD (lc "block_" ++ natStr (ib.1 + 1)) ++
              (lc ": " ++ ib.2.description.getD (lc "Code Block " ++ natStr (ib.1 + 1))))
    · rw [if_neg hlen] at hx'
      simp at hx'

lemma partsCount_importSection (p : List Char → Bool) (hp : LinePred p)
    (acc : MergeAcc) (hacc : AccInv acc) :
    partsCount p (importSection acc) = 0 := by
  unfold importSection
  by_cases hc : acc.allImports.isEmpty && acc.fromImports.isEmpty
  · rw [if_pos hc]
    rfl
  · rw [if_neg hc]
    apply partsCount_zero
    intro x hx
    rcases List.mem_cons.mp hx with rfl | hx
    · exact ⟨by decide, hp.hash (lc "Consolidated imports")⟩
    · rcases List.mem_append.mp hx with hx | hx
      · rcases List.mem_append.mp hx with hx | hx
        · have hmem := sortStrs_mem hx
          exact ⟨(hacc.imps x hmem).2, hp.impLine x (hacc.imps x hmem).1⟩
        · rcases List.mem_map.mp hx with ⟨mp, hmp, rfl⟩
          have hmem := (sortKV_perm acc.fromImports).subset hmp
          refine ⟨?_, hp.fromLine _ (pyContainsSub_append_mid mp.1 (lc " import ") _)⟩
          intro hc'
          rcases List.mem_append.mp hc' with hc' | hc'
          · rcases List.mem_append.mp hc' with hc' | hc'
            · exact (hacc.fromNl mp hmem).1 hc'
            · exact absurd hc' (by decide)
          · refine joinWith_not_mem (by decide) (sortStrs mp.2) ?_ hc'
            intro q hq
            exact (hacc.fromNl mp hmem).2 q (sortStrs_mem hq)
      · rcases List.mem_singleton.mp hx with rfl
        exact ⟨by simp, hp.empty⟩

lemma partsCount_sectionParts (p : List Char → Bool) (hp : LinePred p)
    (acc : MergeAcc) (hacc : AccInv acc) :
    partsCount p (sectionParts acc.others) = 0 := by
  unfold sectionParts
  apply partsCount_flatten_map
  intro s hs
  obtain ⟨d, f, bo, hh, hd, hf, hcode, hbone, hok⟩ := hacc.sects s hs
  have hheader : (splitCh '\n' s.header).countP p = 0 := by
    rw [hh]
    unfold sectionHeader
    rw [splitCh_joinWith_of_no_nl _ (by simp) ?hnl]
    case hnl =>
      intro x hx
      simp only [List.mem_cons, List.not_mem_nil, or_false] at hx
      rcases hx with rfl | rfl | rfl | rfl | rfl
      · simp
      · intro hc
        simp only [List.mem_append] at hc
        rcases hc with hc | hc
        · exact absurd hc (by decide)
        · exact absurd hc (by decide)
      · intro hc
        simp only [List.mem_append] at hc
        rcases hc with (((hc | hc) | hc) | hc) | hc
        · exact absurd hc (by decide)
        · exact hd hc
        · exact absurd hc (by decide)
        · exact hf hc
        · exact absurd hc (by decide)
      · intro hc
        simp only [List.mem_append] at hc
        rcases hc with hc | hc
        · exact absurd hc (by decide)
        · exact absurd hc (by decide)
      · simp
    rw [List.countP_eq_zero]
    intro a ha
    simp only [List.mem_cons, List.not_mem_nil, or_false] at ha
    rcases ha with rfl | rfl | rfl | rfl | rfl
    · simp [hp.empty]
    · simp [hp.hash _]
    · simpa [List.append_assoc] using hp.hash (d ++ (lc " (from " ++ (f ++ lc ")")))
    · simp [hp.hash _]
    · simp [hp.empty]
  have hcode0 : (splitCh '\n' s.code).countP p = 0 := by
    rw [hcode, splitCh_joinWith_of_no_nl bo hbone (fun x hx => (hok x hx).2.2),
      List.countP_eq_zero]
    intro a ha
    simp [hp.okL a (hok a ha)]
  rw [partsCount_cons, partsCount_cons, partsCount_cons, hheader, hcode0,
    countP_single_line p [] (by simp) hp.empty]
  rfl

/-- The shape `AccInv` guarantees of every collected entry point. -/
def MainsOk (mfs : List MainFn) : Prop :=
  ∀ mf ∈ mfs, (∀ x ∈ mf.code.drop 1, okLine x) ∧ '\n' ∉ mf.description ∧
    pyStartsWith mf.name (lc "main_") = true ∧ '\n' ∉ mf.name

lemma partsCount_mainCallLines (p : List Char → Bool) (hp : LinePred p)
    (mfs : List MainFn) (hm : MainsOk mfs) :
    partsCount p (mainCallLines mfs) = 0 := by
  unfold mainCallLines
  apply partsCount_flatten_map
  intro ib hib
  obtain ⟨-, hdnl, -, hnnl⟩ := hm ib.2 (mem_enum_snd hib)
  rw [partsCount_append]
  have h3 : partsCount p
      [lc "    # Execute " ++ ib.2.description,
       lc "    print(\"\\n" ++ emojiPin ++ lc " " ++ ib.2.description ++ lc "\")",
       lc "    " ++ ib.2.name ++ lc "()"] = 0 := by
    apply partsCount_zero
    intro x hx
    simp only [List.mem_cons, List.not_mem_nil, or_false] at hx
    rcases hx with rfl | rfl | rfl
    · refine ⟨?_, by simpa [List.append_assoc] using hp.sp4 (lc "# Execute " ++ ib.2.description)⟩
      intro hc
      simp only [List.mem_append] at hc
      rcases hc with hc | hc
      · exact absurd hc (by decide)
      · exact hdnl hc
    · constructor
      · intro hc
        simp only [List.mem_append] at hc
        rcases hc with (((hc | hc) | hc) | hc) | hc
        · exact absurd hc (by decide)
        · exact absurd hc (by decide)
        · exact absurd hc (by decide)
        · exact hdnl hc
        · exact absurd hc (by decide)
      · have hpx := hp.sp4
          (lc "print(\"\\n" ++ (emojiPin ++ (lc " " ++ (ib.2.description ++ lc "\")"))))
        simpa [List.append_assoc] using hpx
    · constructor
      · intro hc
        simp only [List.mem_append] at hc
        rcases hc with (hc | hc) | hc
        · exact absurd hc (by decide)
        · exact hnnl hc
        · exact absurd hc (by decide)
      · have hpx := hp.sp4 (ib.2.name ++ lc "()")
        simpa [List.append_assoc] using hpx
  rw [h3]
  by_cases hi : ib.1 + 1 < mfs.length
  · rw [if_pos hi]
    simp [partsCount, splitCh_of_not_mem '\n' [] (by simp), hp.empty]
  · rw [if_neg hi]
    rfl

lemma partsCount_defBlocks (p : List Char → Bool) (hp : LinePred p)
    (mfs : List MainFn) (hm : MainsOk mfs) :
    partsCount p ((mfs.map (fun mf =>
      [lc "def " ++ mf.name ++ lc "():",
       lc "    \"\"\"Execute " ++ mf.description ++ lc ".\"\"\""] ++
      mf.code.drop 1 ++ [[]])).flatten) = 0 := by
  apply partsCount_flatten_map
  intro mf hmf
  obtain ⟨hok, hdnl, hst, hnnl⟩ := hm mf hmf
  rw [partsCount_append, partsCount_append]
  have h2 : partsCount p
      [lc "def " ++ mf.name ++ lc "():",
       lc "    \"\"\"Execute " ++ mf.description ++ lc ".\"\"\""] = 0 := by
    apply partsCount_zero
    intro x hx
    simp only [List.mem_cons, List.not_mem_nil, or_false] at hx
    rcases hx with rfl | rfl
    · obtain ⟨z, hz⟩ := (pyStartsWith_iff mf.name (lc "main_")).1 hst
      constructor
      · intro hc
        simp only [List.mem_append] at hc
        rcases hc with (hc | hc) | hc
        · exact absurd hc (by decide)
        · exact hnnl hc
        · exact absurd hc (by decide)
      · have hinst := hp.defLine (z ++ lc "():")
        rw [show lc "def main_" = lc "def " ++ lc "main_" from rfl] at hinst
        rw [← hz]
        simpa [List.append_assoc] using hinst
    · constructor
      · intro hc
        simp only [List.mem_append] at hc
        rcases hc with (hc | hc) | hc
        · exact absurd hc (by decide)
        · exact hdnl hc
        · exact absurd hc (by decide)
      · have hpx := hp.sp4 (lc "\"\"\"Execute " ++ (mf.description ++ lc ".\"\"\""))
        simpa [List.append_assoc] using hpx
  have hcode : partsCount p (mf.code.drop 1) = 0 :=
    partsCount_zero p _ (fun x hx => ⟨(hok x hx).2.2, hp.okL x (hok x hx)⟩)
  rw [h2, hcode]
  simp [partsCount, splitCh_of_not_mem '\n' [] (by simp), hp.empty]

lemma partsCount_mainSection_guard (mfs : List MainFn) (hm : MainsOk mfs) :
    partsCount lineIsGuard (mainSection mfs) = 0 := by
  unfold mainSection
  by_cases he : mfs.isEmpty
  · rw [if_pos he]
    rfl
  · rw [if_neg he]
    rw [partsCount_append, partsCount_append, partsCount_append,
      partsCount_mainCallLines _ linePred_guard mfs hm,
      partsCount_defBlocks _ linePred_guard mfs hm]
    have h1 : partsCount lineIsGuard
        [[], lc "# Unified main function", lc "def main():",
         lc "    \"\"\"Unified main function that executes all merged functionality.\"\"\"",
         lc "    print(\"" ++ emojiRocket ++ lc " Executing comprehensive merged script...\")",
         []] = 0 := by decide
    have h2 : partsCount lineIsGuard
        [[], lc "    print(\"\\n" ++ emojiCheck ++
          lc " All sections completed successfully!\")", []] = 0 := by decide
    rw [h1, h2]

lemma partsCount_mainSection_ums (mfs : List MainFn) (hm : MainsOk mfs)
    (hne : mfs ≠ []) :
    partsCount isUnifiedMainLine (mainSection mfs) = 1 := by
  unfold mainSection
  rw [if_neg (by simpa [List.isEmpty_iff] using hne)]
  rw [partsCount_append, partsCount_append, partsCount_append,
    partsCount_mainCallLines _ linePred_ums mfs hm,
    partsCount_defBlocks _ linePred_ums mfs hm]
  have h1 : partsCount isUnifiedMainLine
      [[], lc "# Unified main function", lc "def main():",
       lc "    \"\"\"Unified main function that executes all merged functionality.\"\"\"",
       lc "    print(\"" ++ emojiRocket ++ lc " Executing comprehensive merged script...\")",
       []] = 1 := by decide
  have h2 : partsCount isUnifiedMainLine
      [[], lc "    print(\"\\n" ++ emojiCheck ++
        lc " All sections completed successfully!\")", []] = 0 := by decide
  rw [h1, h2]

/-- C1 amended: merging two or more blocks in which every guard opener is
written in the double-quoted form `if __name__ == "__main__":`, whose
filenames and descriptions are single-line (per the data model), with at most
one `def main` opener per block and at least one overall, yields output with
exactly one top-level run-guard line and exactly one `def main():` unified
entry-point line. -/
theorem c1_amended (blocks : List MBlock) (hlen : 2 ≤ blocks.length)
    (hg : ∀ b ∈ blocks, goodBlock b)
    (hmex : ∃ b ∈ blocks, ∃ l ∈ splitCh '\n' b.code, isDefMainLine l = true) :
    guardLineCount (mergeCodeBlocks blocks) = 1 ∧
    defMainLineCount (mergeCodeBlocks blocks) = 1 := by
  obtain ⟨hacc, hmne⟩ := mergeAcc_inv blocks hg
  have hmfne := hmne hmex
  rcases blocks with _ | ⟨a, _ | ⟨b, t⟩⟩
  · simp at hlen
  · simp at hlen
  · have hjoin : mergeCodeBlocks (a :: b :: t)
        = joinWith (lc "\n") (mergedParts (a :: b :: t)) := rfl
    have hne : mergedParts (a :: b :: t) ≠ [] := by
      simp [mergedParts, mergeHeader]
    constructor
    · unfold guardLineCount
      rw [hjoin, countP_guard_join _ _ hne]
      simp only [mergedParts]
      rw [partsCount_append, partsCount_append, partsCount_append,
        partsCount_append,
        partsCount_mergeHeader _ linePred_guard _ hg,
        partsCount_importSection _ linePred_guard _ hacc,
        partsCount_sectionParts _ linePred_guard _ hacc,
        partsCount_mainSection_guard _ hacc.mains,
        show partsCount lineIsGuard [[], guardD, lc "    main()"] = 1 by decide]
    · unfold defMainLineCount
      rw [hjoin, countP_guard_join _ _ hne]
      simp only [mergedParts]
      rw [partsCount_append, partsCount_append, partsCount_append,
        partsCount_append,
        partsCount_mergeHeader _ linePred_ums _ hg,
        partsCount_importSection _ linePred_ums _ hacc,
        partsCount_sectionParts _ linePred_ums _ hacc,
        partsCount_mainSection_ums _ hacc.mains hmfne,
        show partsCount isUnifiedMainLine [[], guardD, lc "    main()"] = 0
          by decide]

/-- A well-formed block with a `main` entry point and double-quoted guard. -/
def c1wb1 : MBlock :=
  ⟨lc "def main():\n    print(1)", some (lc "a.py"), some (lc "Part A")⟩

/-- A well-formed body-only block. -/
def c1wb2 : MBlock := ⟨lc "x = 2", some (lc "b.py"), some (lc "Part B")⟩

/-- Witness for `c1_amended` on two concrete well-formed blocks. -/
theorem c1_witness :
    guardLineCount (mergeCodeBlocks [c1wb1, c1wb2]) = 1 ∧
    defMainLineCount (mergeCodeBlocks [c1wb1, c1wb2]) = 1 :=
  c1_amended [c1wb1, c1wb2] (by decide)
    (by
      intro b hb
      rcases List.mem_cons.mp hb with rfl | hb
      · exact ⟨by decide, by decide,
          fun f hf => by cases hf; decide, fun d hd => by cases hd; decide⟩
      · rcases List.mem_singleton.mp hb with rfl
        exact ⟨by decide, by decide,
          fun f hf => by cases hf; decide, fun d hd => by cases hd; decide⟩)
    ⟨c1wb1, by decide, lc "def main():", by decide, by decide⟩

/-- The duplicate-freeness facts about the import accumulators. -/
def ImpOk (ai : List (List Char)) (fi : List (List Char × List (List Char))) : Prop :=
  ai.Nodup ∧ (fi.map Prod.fst).Nodup ∧ ∀ mp ∈ fi, mp.2.Nodup

lemma processLine_impOk (lines : List (List Char)) (st : BlockScan)
    (l : List Char) (h : ImpOk st.allImports st.fromImports) :
    ImpOk (processLine lines st l).allImports (processLine lines st l).fromImports := by
  obtain ⟨h1, h2, h3⟩ := h
  simp only [processLine]
  split_ifs <;>
    first
      | exact ⟨h1, h2, h3⟩
      | exact ⟨insertNew_nodup h1, h2, h3⟩
      | exact ⟨h1, addFromImport_keys_nodup h2, addFromImport_parts_nodup h3⟩

lemma scan_impOk (lines : List (List Char)) :
    ∀ (ls : List (List Char)) (st : BlockScan),
      ImpOk st.allImports st.fromImports →
      ImpOk (ls.foldl (processLine lines) st).allImports
        (ls.foldl (processLine lines) st).fromImports := by
  intro ls
  induction ls with
  | nil => intro st h; exact h
  | cons l rest ih =>
    intro st h
    simp only [List.foldl_cons]
    exact ih _ (processLine_impOk lines st l h)

lemma processBlock_imports (acc : MergeAcc) (idx : Nat) (b : MBlock) :
    (processBlock acc idx b).allImports =
      (List.foldl (processLine (splitCh '\n' b.code))
        ⟨false, 0, idx, [], [], [], acc.allImports, acc.fromImports⟩
        (splitCh '\n' b.code)).allImports ∧
    (processBlock acc idx b).fromImports =
      (List.foldl (processLine (splitCh '\n' b.code))
        ⟨false, 0, idx, [], [], [], acc.allImports, acc.fromImports⟩
        (splitCh '\n' b.code)).fromImports := by
  simp only [processBlock]
  split_ifs <;> exact ⟨rfl, rfl⟩

lemma mergeAcc_impOk :
    ∀ (ibs : List (Nat × MBlock)) (acc : MergeAcc),
      ImpOk acc.allImports acc.fromImports →
      ImpOk (ibs.foldl (fun a ib => processBlock a ib.1 ib.2) acc).allImports
        (ibs.foldl (fun a ib => processBlock a ib.1 ib.2) acc).fromImports := by
  intro ibs
  induction ibs with
  | nil => intro acc h; exact h
  | cons ib rest ih =>
    intro acc h
    simp only [List.foldl_cons]
    apply ih
    obtain ⟨e1, e2⟩ := processBlock_imports acc ib.1 ib.2
    rw [e1, e2]
    exact scan_impOk _ _ _ h

/-- C2 amended: in the consolidated import section merge emits for two or
more blocks, the plain-import lines are pairwise distinct (exact duplicates
are collapsed), there is exactly one combined from-import line per module
(the module keys are pairwise distinct), and on each such line the textual
name-list fragments after ` import ` are deduplicated — but, as the
counterexample shows, an individual imported name may still repeat when it
occurs inside two different textual fragments. -/
theorem c2_amended (blocks : List MBlock) (_hlen : 2 ≤ blocks.length) :
    (plainImportLines (mergeAcc blocks)).Nodup ∧
    ((sortKV (mergeAcc blocks).fromImports).map Prod.fst).Nodup ∧
    ∀ mp ∈ sortKV (mergeAcc blocks).fromImports, (sortStrs mp.2).Nodup := by
  have h := mergeAcc_impOk blocks.enum ⟨[], [], [], []⟩ ⟨by simp, by simp, by simp⟩
  obtain ⟨h1, h2, h3⟩ := h
  refine ⟨sortStrs_nodup h1, ?_, ?_⟩
  · have hperm := (sortKV_perm (mergeAcc blocks).fromImports).map Prod.fst
    exact (hperm.nodup_iff).mpr h2
  · intro mp hmp
    exact sortStrs_nodup (h3 mp ((sortKV_perm _).subset hmp))

/-- Witness for `c2_amended` at the counterexample blocks. -/
theorem c2_witness :
    (plainImportLines (mergeAcc [c2b1, c2b2])).Nodup ∧
    ((sortKV (mergeAcc [c2b1, c2b2]).fromImports).map Prod.fst).Nodup ∧
    ∀ mp ∈ sortKV (mergeAcc [c2b1, c2b2]).fromImports, (sortStrs mp.2).Nodup :=
  c2_amended [c2b1, c2b2] (by decide)

/-!  ## Code Extraction
(`extract_python_code` of `ultimate_python_generator5.py`, lines 936-1076). -/

/-- The constant `MERGE_ALL_CODE_BLOCKS` (line 30 of the source). -/
def MERGE_ALL_CODE_BLOCKS : Bool := true

/-- Python `s or d` for strings (`s` is falsy exactly when empty). -/
def pyOr (s d : List Char) : List Char := if s.isEmpty then d else s

/-- Python `o or d` where `o : Optional[str]` (`None` and `""` are falsy). -/
def pyOrOpt (o : Option (List Char)) (d : List Char) : List Char :=
  match o with
  | none => d
  | some s => pyOr s d

/-- Python truthiness test `not o` for `o : Optional[str]`. -/
def pyFalsyOpt : Option (List Char) → Bool
  | none => true
  | some s => s.isEmpty

/-- `re.search` for the pattern `([a-zA-Z_][a-zA-Z0-9_]*\.py)` (lines 960, 976),
returning group 1 of the leftmost match.  At each start position the engine
takes the maximal `[a-zA-Z0-9_]*` run and then requires the literal `.py`;
since `.` is not in the starred class, backtracking the run can never help,
so the leftmost-match semantics is exactly this scan. -/
def findPyIdent : List Char → Option (List Char)
  | [] => none
  | c :: rest =>
    if identStart c then
      let run := rest.takeWhile identCont
      if pyStartsWith (rest.drop run.length) (lc ".py") then
        some (c :: run ++ lc ".py")
      else findPyIdent rest
    else findPyIdent rest

/-- `re.search` for `create\s+([a-zA-Z_][a-zA-Z0-9_]*\.py)` with `re.IGNORECASE`
(line 968), returning group 1 of the leftmost match.  `\s+` is greedy and the
following class excludes whitespace, and the run excludes `.`, so again no
backtracking case survives and a failed start position just advances by one. -/
def findCreatePy : List Char → Option (List Char)
  | [] => none
  | c :: rest =>
    if pyStartsWith (pyToLower (c :: rest)) (lc "create") then
      let after := (c :: rest).drop 6
      let ws := after.takeWhile pyIsSpace
      if ws.isEmpty then findCreatePy rest
      else
        match after.drop ws.length with
        | [] => findCreatePy rest
        | d :: rest2 =>
          if identStart d then
            let run := rest2.takeWhile identCont
            if pyStartsWith (rest2.drop run.length) (lc ".py") then
              some (d :: run ++ lc ".py")
            else findCreatePy rest
          else findCreatePy rest
    else findCreatePy rest

/-- The mutable state of the phase-1 scanning loop of `extract_python_code`
(lines 942-947): `in_code_block`, `current_block`, `current_filename`,
`current_description`, `block_count` and the accumulated `code_blocks`. -/
structure ExSt where
  inBlock : Bool
  curBlock : List (List Char)
  curFilename : Option (List Char)
  curDesc : List Char
  count : Nat
  blocks : List MBlock
deriving DecidableEq

/-- The loop state at entry (lines 942-947). -/
def initExSt : ExSt := ⟨false, [], none, lc "Code Block", 0, []⟩

/-- Saving the current block as a `code_blocks` entry with the default
filename `script_{n}.py` and description `Code Block {n}` (lines 989-993,
1009-1013, 1030-1034; the defaults apply under Python `or` truthiness). -/
def exSaveBlock (st : ExSt) (n : Nat) : MBlock :=
  ⟨pstrip (joinWith (lc "\n") st.curBlock),
   some (pyOrOpt st.curFilename (lc "script_" ++ natStr n ++ lc ".py")),
   some (pyOr st.curDesc (lc "Code Block " ++ natStr n))⟩

/-- The filename-hint scan on a stripped line (lines 956-983): four patterns
tried in `elif` order; patterns 1-3 set both `current_filename` and
`current_description` when their regex matches, pattern 4 sets only the
description. -/
def hintScan (st : ExSt) (stripped : List Char) : ExSt :=
  let low := pyToLower stripped
  if pyContainsSub low (lc "save as ") || pyContainsSub low (lc "call it ") ||
      pyContainsSub low (lc "name it ") || pyContainsSub low (lc "filename:") then
    match findPyIdent stripped with
    | some m => { st with curFilename := some m, curDesc := stripped }
    | none => st
  else if pyContainsSub low (lc "create ") || pyContainsSub low (lc "first, create") then
    match findCreatePy stripped with
    | some m => { st with curFilename := some m, curDesc := stripped }
    | none => st
  else if pyContainsSub low (lc "finally,") || pyContainsSub low (lc "next,") ||
      pyContainsSub low (lc "then,") || pyContainsSub low (lc "also,") then
    match findPyIdent stripped with
    | some m => { st with curFilename := some m, curDesc := stripped }
    | none => st
  else if pyStartsWith stripped (lc "#") &&
      (pyContainsSub low (lc "file") || pyContainsSub low (lc "script") ||
        pyContainsSub low (lc "module")) then
    { st with curDesc := pstrip (stripped.dropWhile (fun c => c == '#')) }
  else st

/-- One iteration of the phase-1 `while` loop (lines 951-1026) on the line at
index `i`; `hintGuard` is `i < len(lines) - 2`, i.e. at least two more lines
follow the current one. -/
def exStep (hintGuard : Bool) (st : ExSt) (line : List Char) : ExSt :=
  let stripped := pstrip line
  let st1 := if !st.inBlock && hintGuard then hintScan st stripped else st
  if pyStartsWith stripped (lc "```python") ||
      (pyStartsWith stripped (lc "```") && !st1.inBlock) then
    let st2 :=
      if st1.inBlock && !st1.curBlock.isEmpty then
        { st1 with blocks := st1.blocks ++ [exSaveBlock st1 (st1.count + 1)],
                   curBlock := [] }
      else st1
    { st2 with
      inBlock := true,
      count := st2.count + 1,
      curFilename :=
        if pyFalsyOpt st2.curFilename then
          some (lc "script_" ++ natStr (st2.count + 1) ++ lc ".py")
        else st2.curFilename,
      curDesc :=
        if st2.curDesc = lc "Code Block" then
          lc "Code Block " ++ natStr (st2.count + 1)
        else st2.curDesc }
  else if st1.inBlock && stripped == lc "```" then
    let st2 :=
      if !st1.curBlock.isEmpty then
        { st1 with blocks := st1.blocks ++ [exSaveBlock st1 st1.count],
                   curBlock := [] }
      else st1
    { st2 with inBlock := false, curFilename := none, curDesc := lc "Code Block" }
  else if st1.inBlock then
    { st1 with curBlock := st1.curBlock ++ [line] }
  else st1

/-- The phase-1 loop over all lines; every iteration advances `i` by one, so
it is a plain traversal, and the lookahead guard `i < len(lines) - 2` holds
exactly when at least 2 lines remain after the current one. -/
def exLoop : ExSt → List (List Char) → ExSt
  | st, [] => st
  | st, l :: rest => exLoop (exStep (decide (2 ≤ rest.length)) st l) rest

/-- Phase 1 of `extract_python_code`: the detected `code_blocks` list,
including the final still-open block when non-empty (lines 1029-1034). -/
def exBlocks (lines : List (List Char)) : List MBlock :=
  let st := exLoop initExSt lines
  if st.inBlock && !st.curBlock.isEmpty then
    st.blocks ++ [exSaveBlock st st.count]
  else st.blocks

/-- Phase 3 fallback extraction (lines 1064-1076): keep lines that do not
start with `Here`/`This`/`The`/a fence, are non-blank after stripping, and do
not end with a colon; join and strip. -/
def exFallback (lines : List (List Char)) : List Char :=
  pstrip (joinWith (lc "\n") (lines.filter (fun line =>
    let s := pstrip line
    !pyStartsWith s (lc "Here") && !pyStartsWith s (lc "This") &&
      !pyStartsWith s (lc "The") && !pyStartsWith s (lc "```") &&
      !s.isEmpty && !pyEndsWithCh s ':')))

/-- `extract_python_code` (lines 936-1076).  `pyValid` stands for
`validate_python_code`, i.e. whether `ast.parse` accepts a text; it is only
consulted on the multi-block path when merging is disabled. -/
def extract_python_code (pyValid : List Char → Bool) (response : List Char) :
    List Char :=
  let lines := splitCh '\n' response
  let code_blocks := exBlocks lines
  if 1 < code_blocks.length then
    if MERGE_ALL_CODE_BLOCKS then mergeCodeBlocks code_blocks
    else
      match code_blocks.find? (fun b => pyValid b.code) with
      | some b => b.code
      | none => exFallback lines
  else if code_blocks.length = 1 then
    (code_blocks.headD ⟨[], none, none⟩).code
  else exFallback lines

lemma pyStartsWith_of_extend {s a b : List Char} (hab : a <+: b)
    (h : pyStartsWith s b = true) : pyStartsWith s a = true := by
  rw [pyStartsWith_iff] at h ⊢
  exact hab.trans h

lemma not_ticks_python {s : List Char}
    (h : pyStartsWith s (lc "```") = false) :
    pyStartsWith s (lc "```python") = false := by
  cases hp : pyStartsWith s (lc "```python")
  · rfl
  · rw [pyStartsWith_of_extend (by decide) hp] at h
    cases h

lemma hintScan_fields (st : ExSt) (s : List Char) :
    (hintScan st s).inBlock = st.inBlock ∧ (hintScan st s).curBlock = st.curBlock ∧
      (hintScan st s).count = st.count ∧ (hintScan st s).blocks = st.blocks := by
  simp only [hintScan]
  split_ifs <;>
    first
      | exact ⟨rfl, rfl, rfl, rfl⟩
      | (cases findPyIdent s <;> exact ⟨rfl, rfl, rfl, rfl⟩)
      | (cases findCreatePy s <;> exact ⟨rfl, rfl, rfl, rfl⟩)

lemma exStep_hint (st : ExSt) (l : List Char) (hin : st.inBlock = false)
    (hl : pyStartsWith (pstrip l) (lc "```") = false) :
    exStep true st l = hintScan st (pstrip l) := by
  have hf := hintScan_fields st (pstrip l)
  simp only [exStep, hin, not_ticks_python hl, hl, hf.1, Bool.not_false,
    Bool.and_true, if_true, Bool.false_and, Bool.and_false, Bool.false_or,
    Bool.or_self, Bool.false_eq_true, if_false]

lemma foldHint_fields : ∀ (pre : List (List Char)) (st : ExSt),
    (pre.foldl (fun s l => hintScan s (pstrip l)) st).inBlock = st.inBlock ∧
      (pre.foldl (fun s l => hintScan s (pstrip l)) st).curBlock = st.curBlock ∧
      (pre.foldl (fun s l => hintScan s (pstrip l)) st).count = st.count ∧
      (pre.foldl (fun s l => hintScan s (pstrip l)) st).blocks = st.blocks := by
  intro pre
  induction pre with
  | nil => intro st; exact ⟨rfl, rfl, rfl, rfl⟩
  | cons l rest ih =>
    intro st
    obtain ⟨i1, i2, i3, i4⟩ := ih (hintScan st (pstrip l))
    obtain ⟨h1, h2, h3, h4⟩ := hintScan_fields st (pstrip l)
    exact ⟨i1.trans h1, i2.trans h2, i3.trans h3, i4.trans h4⟩

lemma exLoop_pre : ∀ (pre suffix : List (List Char)) (st : ExSt),
    2 ≤ suffix.length → st.inBlock = false →
    (∀ l ∈ pre, pyStartsWith (pstrip l) (lc "```") = false) →
    exLoop st (pre ++ suffix) =
      exLoop (pre.foldl (fun s l => hintScan s (pstrip l)) st) suffix := by
  intro pre
  induction pre with
  | nil => intro suffix st _ _ _; rfl
  | cons l rest ih =>
    intro suffix st hs hin hp
    simp only [List.cons_append, exLoop, List.foldl_cons, List.append_eq]
    have hs2 : 2 ≤ (rest ++ suffix).length := by
      rw [List.length_append]; omega
    rw [decide_eq_true hs2, exStep_hint st l hin (hp l (by simp))]
    exact ih suffix (hintScan st (pstrip l)) hs
      ((hintScan_fields st (pstrip l)).1.trans hin)
      (fun x hx => hp x (List.mem_cons_of_mem l hx))

/-- The state update performed by the fence-opening branch (lines 996-1001):
enter a block, bump `block_count`, and default the filename and the
description under Python truthiness. -/
def fenceUpd (st : ExSt) : ExSt :=
  { st with
    inBlock := true,
    count := st.count + 1,
    curFilename :=
      if pyFalsyOpt st.curFilename then
        some (lc "script_" ++ natStr (st.count + 1) ++ lc ".py")
      else st.curFilename,
    curDesc :=
      if st.curDesc = lc "Code Block" then
        lc "Code Block " ++ natStr (st.count + 1)
      else st.curDesc }

/-- The scan state after the pre-fence lines. -/
def preScan (pre : List (List Char)) : ExSt :=
  pre.foldl (fun s l => hintScan s (pstrip l)) initExSt

/-- The state at a fence line after the fence line's own hint scan, which
runs exactly when the lookahead guard holds there. -/
def hintAt (pre : List (List Char)) (fence : List Char) : Bool → ExSt
  | true => hintScan (preScan pre) (pstrip fence)
  | false => preScan pre

/-- The filename the still-open block receives. -/
def unFn (pre : List (List Char)) (fence : List Char) (g : Bool) :
    Option (List Char) :=
  (fenceUpd (hintAt pre fence g)).curFilename

/-- The description the still-open block receives. -/
def unDs (pre : List (List Char)) (fence : List Char) (g : Bool) : List Char :=
  (fenceUpd (hintAt pre fence g)).curDesc

lemma preScan_fields (pre : List (List Char)) :
    (preScan pre).inBlock = false ∧ (preScan pre).curBlock = [] ∧
      (preScan pre).count = 0 ∧ (preScan pre).blocks = [] :=
  foldHint_fields pre initExSt

lemma hintAt_fields (pre : List (List Char)) (fence : List Char) (g : Bool) :
    (hintAt pre fence g).inBlock = false ∧ (hintAt pre fence g).curBlock = [] ∧
      (hintAt pre fence g).count = 0 ∧ (hintAt pre fence g).blocks = [] := by
  obtain ⟨h1, h2, h3, h4⟩ := preScan_fields pre
  cases g with
  | false => exact ⟨h1, h2, h3, h4⟩
  | true =>
    obtain ⟨g1, g2, g3, g4⟩ := hintScan_fields (preScan pre) (pstrip fence)
    exact ⟨g1.trans h1, g2.trans h2, g3.trans h3, g4.trans h4⟩

lemma exLoop_preScan (pre suffix : List (List Char)) (hs : 2 ≤ suffix.length)
    (hp : ∀ l ∈ pre, pyStartsWith (pstrip l) (lc "```") = false) :
    exLoop initExSt (pre ++ suffix) = exLoop (preScan pre) suffix :=
  exLoop_pre pre suffix initExSt hs rfl hp

lemma exStep_fence (g : Bool) (st : ExSt) (fence : List Char)
    (hin : st.inBlock = false)
    (hf : pyStartsWith (pstrip fence) (lc "```") = true) :
    exStep g st fence =
      fenceUpd (if g then hintScan st (pstrip fence) else st) := by
  cases g with
  | false =>
    have hst1 : (!st.inBlock && false) = false := Bool.and_false _
    simp only [exStep, hst1, Bool.false_eq_true, if_false]
    rw [if_pos (by rw [hf, hin]; simp)]
    rw [if_neg (by rw [hin]; simp)]
    rfl
  | true =>
    have hst1 : (!st.inBlock && true) = true := by rw [hin]; rfl
    have hsin : (hintScan st (pstrip fence)).inBlock = false :=
      (hintScan_fields st (pstrip fence)).1.trans hin
    simp only [exStep, hst1, if_true]
    rw [if_pos (by rw [hf, hsin]; simp)]
    rw [if_neg (by rw [hsin]; simp)]
    rfl

lemma exStep_inBlock (g : Bool) (st : ExSt) (l : List Char)
    (hin : st.inBlock = true)
    (hl : pyStartsWith (pstrip l) (lc "```") = false) :
    exStep g st l = { st with curBlock := st.curBlock ++ [l] } := by
  have hne : (pstrip l == lc "```") = false := by
    rw [beq_eq_false_iff_ne]
    intro h
    rw [h] at hl
    exact absurd hl (by decide)
  simp only [exStep, hin, not_ticks_python hl, hl, hne, Bool.not_true,
    Bool.false_and, Bool.and_false, Bool.or_self, Bool.false_eq_true, if_false,
    Bool.true_and, if_true]

lemma exLoop_inBlock (extra : List (List Char)) : ∀ (tl : List (List Char)) (st : ExSt),
    (∀ l ∈ tl, pyStartsWith (pstrip l) (lc "```") = false) → st.inBlock = true →
    exLoop st (tl ++ extra) = exLoop { st with curBlock := st.curBlock ++ tl } extra := by
  intro tl
  induction tl with
  | nil => intro st _ _; simp
  | cons l rest ih =>
    intro st h hin
    simp only [List.cons_append, exLoop, List.append_eq]
    rw [exStep_inBlock _ st l hin (h l (by simp)),
      ih { st with curBlock := st.curBlock ++ [l] }
        (fun x hx => h x (List.mem_cons_of_mem l hx)) hin]
    have hassoc : (st.curBlock ++ [l]) ++ rest = st.curBlock ++ l :: rest := by
      simp
    rw [hassoc]

lemma exStep_close (g : Bool) (st : ExSt) (hin : st.inBlock = true)
    (hcb : st.curBlock ≠ []) :
    exStep g st (lc "```") =
      { st with
        inBlock := false,
        curBlock := [],
        curFilename := none,
        curDesc := lc "Code Block",
        blocks := st.blocks ++ [exSaveBlock st st.count] } := by
  have hcbe : st.curBlock.isEmpty = false := by
    cases hc : st.curBlock with
    | nil => exact absurd hc hcb
    | cons a b => rfl
  simp only [exStep, hin, hcbe, Bool.not_true, Bool.false_and, Bool.and_false,
    Bool.not_false, Bool.true_and, Bool.or_false, Bool.false_eq_true, if_false,
    if_true]
  rw [if_neg (by decide :
    ¬ (pyStartsWith (pstrip (lc "```")) (lc "```python") = true))]
  rw [if_pos (by decide : (pstrip (lc "```") == lc "```") = true)]

lemma exLoop_inBlock_nil (tl : List (List Char)) (st : ExSt)
    (h : ∀ l ∈ tl, pyStartsWith (pstrip l) (lc "```") = false)
    (hin : st.inBlock = true) :
    exLoop st tl = { st with curBlock := st.curBlock ++ tl } := by
  have h1 := exLoop_inBlock [] tl st h hin
  rw [List.append_nil] at h1
  exact h1

lemma exLoop_unclosed_run (pre tl : List (List Char)) (fence : List Char)
    (hpre : ∀ l ∈ pre, pyStartsWith (pstrip l) (lc "```") = false)
    (hfence : pyStartsWith (pstrip fence) (lc "```") = true)
    (htl : tl ≠ [])
    (htail : ∀ l ∈ tl, pyStartsWith (pstrip l) (lc "```") = false) :
    exLoop initExSt (pre ++ fence :: tl) =
      ExSt.mk true tl (unFn pre fence (decide (2 ≤ tl.length)))
        (unDs pre fence (decide (2 ≤ tl.length))) 1 [] := by
  obtain ⟨hPin, hPcb, hPct, hPbl⟩ := preScan_fields pre
  obtain ⟨hQin, hQcb, hQct, hQbl⟩ := hintAt_fields pre fence (decide (2 ≤ tl.length))
  rw [exLoop_preScan pre (fence :: tl)
    (Nat.succ_le_succ (List.length_pos.mpr htl)) hpre]
  simp only [exLoop]
  rw [exStep_fence (decide (2 ≤ tl.length)) (preScan pre) fence hPin hfence]
  rw [show (if decide (2 ≤ tl.length) then hintScan (preScan pre) (pstrip fence)
      else preScan pre) = hintAt pre fence (decide (2 ≤ tl.length)) from by
    cases hdec : decide (2 ≤ tl.length) <;> rfl]
  rw [exLoop_inBlock_nil tl _ htail rfl]
  have e0 : (fenceUpd (hintAt pre fence (decide (2 ≤ tl.length)))).curBlock = [] := by
    show (hintAt pre fence (decide (2 ≤ tl.length))).curBlock = []
    exact hQcb
  have e1 : (fenceUpd (hintAt pre fence (decide (2 ≤ tl.length)))).count = 1 := by
    show (hintAt pre fence (decide (2 ≤ tl.length))).count + 1 = 1
    rw [hQct]
  have e2 : (fenceUpd (hintAt pre fence (decide (2 ≤ tl.length)))).blocks = [] := by
    show (hintAt pre fence (decide (2 ≤ tl.length))).blocks = []
    exact hQbl
  show ExSt.mk true
      ((fenceUpd (hintAt pre fence (decide (2 ≤ tl.length)))).curBlock ++ tl)
      (fenceUpd (hintAt pre fence (decide (2 ≤ tl.length)))).curFilename
      (fenceUpd (hintAt pre fence (decide (2 ≤ tl.length)))).curDesc
      (fenceUpd (hintAt pre fence (decide (2 ≤ tl.length)))).count
      (fenceUpd (hintAt pre fence (decide (2 ≤ tl.length)))).blocks = _
  rw [e0, e1, e2, List.nil_append]
  rfl

lemma exLoop_closed_run (pre tl : List (List Char)) (fence : List Char)
    (hpre : ∀ l ∈ pre, pyStartsWith (pstrip l) (lc "```") = false)
    (hfence : pyStartsWith (pstrip fence) (lc "```") = true)
    (htl : tl ≠ [])
    (htail : ∀ l ∈ tl, pyStartsWith (pstrip l) (lc "```") = false) :
    exLoop initExSt (pre ++ fence :: (tl ++ [lc "```"])) =
      ExSt.mk false [] none (lc "Code Block") 1
        [exSaveBlock
          (ExSt.mk true tl (unFn pre fence true) (unDs pre fence true) 1 []) 1] := by
  obtain ⟨hPin, hPcb, hPct, hPbl⟩ := preScan_fields pre
  obtain ⟨hQin, hQcb, hQct, hQbl⟩ := hintAt_fields pre fence true
  have hslen : 2 ≤ (fence :: (tl ++ [lc "```"])).length := by
    simp only [List.length_cons, List.length_append]
    omega
  rw [exLoop_preScan pre (fence :: (tl ++ [lc "```"])) hslen hpre]
  simp only [exLoop]
  rw [exStep_fence (decide (2 ≤ (tl ++ [lc "```"]).length)) (preScan pre) fence
    hPin hfence]
  have hg : decide (2 ≤ (tl ++ [lc "```"]).length) = true := decide_eq_true (by
    rw [List.length_append]
    have hp1 := List.length_pos.mpr htl
    simp only [List.length_singleton]
    omega)
  rw [hg, if_pos rfl,
    show hintScan (preScan pre) (pstrip fence) = hintAt pre fence true from rfl]
  rw [exLoop_inBlock [lc "```"] tl _ htail rfl]
  have hstA : { fenceUpd (hintAt pre fence true) with
      curBlock := (fenceUpd (hintAt pre fence true)).curBlock ++ tl } =
      ExSt.mk true tl (unFn pre fence true) (unDs pre fence true) 1 [] := by
    have e0 : (fenceUpd (hintAt pre fence true)).curBlock = [] := by
      show (hintAt pre fence true).curBlock = []
      exact hQcb
    have e1 : (fenceUpd (hintAt pre fence true)).count = 1 := by
      show (hintAt pre fence true).count + 1 = 1
      rw [hQct]
    have e2 : (fenceUpd (hintAt pre fence true)).blocks = [] := by
      show (hintAt pre fence true).blocks = []
      exact hQbl
    show ExSt.mk true
        ((fenceUpd (hintAt pre fence true)).curBlock ++ tl)
        (fenceUpd (hintAt pre fence true)).curFilename
        (fenceUpd (hintAt pre fence true)).curDesc
        (fenceUpd (hintAt pre fence true)).count
        (fenceUpd (hintAt pre fence true)).blocks = _
    rw [e0, e1, e2, List.nil_append]
    rfl
  rw [hstA]
  simp only [exLoop]
  rw [exStep_close _ _ rfl htl]
  rfl

/-- C10 counterexample, two independent failures of the claim.  First, a
response whose opening fence is its last line has an empty `current_block`
when the loop ends, so the line-1029 save is skipped, no block is detected,
and extraction falls back to prose-stripping the whole response — returning
the pre-fence text `x = 1` instead of the (empty) block contents.  Second,
the filename-hint association is not always the same as for a closed block:
on the fence line itself the hint scan runs only when `i < len(lines) - 2`,
and appending the closing fence changes that lookahead — for the response
```` ``` save as foo.py ```` + `x = 1`, the unclosed variant names the block
`script_1.py` while its closed variant names it `foo.py`. -/
theorem c10_counterexample :
    (exBlocks (splitCh '\n' (lc "x = 1\n```python")) = [] ∧
      extract_python_code (fun _ => false) (lc "x = 1\n```python") =
        lc "x = 1") ∧
    ((exBlocks (splitCh '\n' (lc "``` save as foo.py\nx = 1"))).map
        MBlock.filename = [some (lc "script_1.py")] ∧
      (exBlocks (splitCh '\n' (lc "``` save as foo.py\nx = 1\n```"))).map
        MBlock.filename = [some (lc "foo.py")]) := by decide

/-- C10 amended: for any opening fence — a line whose stripped form starts
with a triple-backtick marker — followed by at least one line and never
closed (no pre-fence or post-fence line strips to a fence form), the block
is kept: phase 1 detects exactly one block, whose code is the lines after
the opening fence joined and stripped of surrounding whitespace and whose
filename and description come from the hint state the loop reaches at the
fence, and extraction returns that code with no prose-stripping fallback.
The detected blocks moreover equal those of the closed variant (the same
response with a terminating fence line) whenever at least two lines follow
the opening fence — then the `i < len(lines) - 2` lookahead guard holds at
the fence in both variants — or the fence line's own hint scan leaves the
state unchanged (as for bare ```` ``` ```` or plain ```` ```python ````
fences); the counterexample shows this equality fails in general. -/
theorem c10_amended (pyValid : List Char → Bool)
    (pre tl : List (List Char)) (fence : List Char)
    (hpre : ∀ l ∈ pre, pyStartsWith (pstrip l) (lc "```") = false ∧ '\n' ∉ l)
    (hfence : pyStartsWith (pstrip fence) (lc "```") = true) (hfn : '\n' ∉ fence)
    (htl : tl ≠ [])
    (htail : ∀ l ∈ tl, pyStartsWith (pstrip l) (lc "```") = false ∧ '\n' ∉ l) :
    exBlocks (splitCh '\n' (joinWith (lc "\n") (pre ++ fence :: tl))) =
      [exSaveBlock (ExSt.mk true tl (unFn pre fence (decide (2 ≤ tl.length)))
        (unDs pre fence (decide (2 ≤ tl.length))) 1 []) 1] ∧
    extract_python_code pyValid (joinWith (lc "\n") (pre ++ fence :: tl)) =
      pstrip (joinWith (lc "\n") tl) ∧
    ((2 ≤ tl.length ∨ hintScan (preScan pre) (pstrip fence) = preScan pre) →
      exBlocks (splitCh '\n' (joinWith (lc "\n") (pre ++ fence :: tl))) =
        exBlocks (splitCh '\n'
          (joinWith (lc "\n") (pre ++ fence :: (tl ++ [lc "```"]))))) := by
  have hU := exLoop_unclosed_run pre tl fence
    (fun l hl => (hpre l hl).1) hfence htl (fun l hl => (htail l hl).1)
  have hC := exLoop_closed_run pre tl fence
    (fun l hl => (hpre l hl).1) hfence htl (fun l hl => (htail l hl).1)
  have hsplitA : splitCh '\n' (joinWith (lc "\n") (pre ++ fence :: tl)) =
      pre ++ fence :: tl := by
    apply splitCh_joinWith_of_no_nl _ (by simp)
    intro x hx
    rcases List.mem_append.1 hx with h | h
    · exact (hpre x h).2
    · rcases List.mem_cons.1 h with h | h
      · rw [h]; exact hfn
      · exact (htail x h).2
  have hsplitB : splitCh '\n'
      (joinWith (lc "\n") (pre ++ fence :: (tl ++ [lc "```"]))) =
      pre ++ fence :: (tl ++ [lc "```"]) := by
    apply splitCh_joinWith_of_no_nl _ (by simp)
    intro x hx
    rcases List.mem_append.1 hx with h | h
    · exact (hpre x h).2
    · rcases List.mem_cons.1 h with h | h
      · rw [h]; exact hfn
      · rcases List.mem_append.1 h with h | h
        · exact (htail x h).2
        · rw [List.mem_singleton.1 h]; decide
  have htlE : tl.isEmpty = false := by
    cases tl with
    | nil => exact absurd rfl htl
    | cons a b => rfl
  have hblocksU : exBlocks (pre ++ fence :: tl) =
      [exSaveBlock (ExSt.mk true tl (unFn pre fence (decide (2 ≤ tl.length)))
        (unDs pre fence (decide (2 ≤ tl.length))) 1 []) 1] := by
    simp only [exBlocks]
    rw [hU]
    simp [htlE]
  have hblocksC : exBlocks (pre ++ fence :: (tl ++ [lc "```"])) =
      [exSaveBlock
        (ExSt.mk true tl (unFn pre fence true) (unDs pre fence true) 1 []) 1] := by
    simp only [exBlocks]
    rw [hC]
    rfl
  refine ⟨by rw [hsplitA]; exact hblocksU, ?_, ?_⟩
  · simp only [extract_python_code]
    rw [hsplitA, hblocksU]
    rw [if_neg (by simp), if_pos (by simp)]
    rfl
  · intro h
    rw [hsplitA, hsplitB, hblocksU, hblocksC]
    rcases h with h | h
    · rw [decide_eq_true h]
    · have hAt : ∀ g : Bool, hintAt pre fence g = preScan pre := by
        intro g
        cases g
        · rfl
        · exact h
      rw [show unFn pre fence (decide (2 ≤ tl.length)) = unFn pre fence true from by
          unfold unFn
          rw [hAt, hAt],
        show unDs pre fence (decide (2 ≤ tl.length)) = unDs pre fence true from by
          unfold unDs
          rw [hAt, hAt]]

/-- Witness for `c10_amended` at a concrete response with a filename hint,
an opening fence, one code line and no closing fence. -/
theorem c10_witness :
    exBlocks (splitCh '\n' (joinWith (lc "\n")
        ([lc "Save as app.py"] ++ lc "```python" :: [lc "x = 1"]))) =
      [exSaveBlock (ExSt.mk true [lc "x = 1"]
        (unFn [lc "Save as app.py"] (lc "```python")
          (decide (2 ≤ [lc "x = 1"].length)))
        (unDs [lc "Save as app.py"] (lc "```python")
          (decide (2 ≤ [lc "x = 1"].length))) 1 []) 1] ∧
    extract_python_code (fun _ => true) (joinWith (lc "\n")
        ([lc "Save as app.py"] ++ lc "```python" :: [lc "x = 1"])) =
      pstrip (joinWith (lc "\n") [lc "x = 1"]) ∧
    ((2 ≤ [lc "x = 1"].length ∨
        hintScan (preScan [lc "Save as app.py"]) (pstrip (lc "```python")) =
          preScan [lc "Save as app.py"]) →
      exBlocks (splitCh '\n' (joinWith (lc "\n")
          ([lc "Save as app.py"] ++ lc "```python" :: [lc "x = 1"]))) =
        exBlocks (splitCh '\n' (joinWith (lc "\n")
          ([lc "Save as app.py"] ++
            lc "```python" :: ([lc "x = 1"] ++ [lc "```"]))))) :=
  c10_amended (fun _ => true) [lc "Save as app.py"] [lc "x = 1"]
    (lc "```python") (by decide) (by decide) (by decide) (by decide) (by decide)

end Monetization
